import Mathlib

/-!
lazystream: a shallow embedding of the push-based stream engine.

The Go package represents a lazy sequence as `iter.Seq[T]`, a function that
receives a `yield` callback and calls it once per element until the callback
answers `false`.  A `for item := range seq { body }` statement is compiled by Go
into a call `seq(func(item) bool { body })` in which the body mutates the local
variables of the enclosing function.

Embedding conventions:

* `σ` is the program state outside the loop at hand (captured variables that
  outlive a traversal, channels, whatever a caller-supplied action touches);
* `β` is the tuple of local variables the loop body mutates; the producer threads
  it from one call of the body to the next;
* a call returns an `Outcome`: a value, a panic, or `diverge` when it does not
  return (an unbounded loop that used up its budget of iterations, or a receive
  that blocks forever);
* unbounded `for` loops carry an explicit budget of iterations (`fuel`);
* heap cells that a closure captures (`make(chan T)`, a counter declared outside
  the closure) are addressed through a `Ref` into `σ`, supplied by the caller.
-/

namespace Lazystream

universe u

/-- Result of running a call: it returns, it panics, or it does not return. -/
inductive Outcome (α : Type u) where
  | ok (a : α)
  | panic (msg : String)
  | diverge
  deriving DecidableEq

/-- Go slices `[]T` are embedded as lists (`nil` and the empty slice coincide). -/
abbrev Slice (T : Type u) := List T

/-- The callback `yield func(T) bool` of a range-over-func loop, with the loop-local
variables `β` and the outer state `σ` passed explicitly. -/
abbrev Yield (σ T β : Type) := T → β → σ → Outcome ((Bool × β) × σ)

/-- The callback `yield func(K, V) bool` of an `iter.Seq2`. -/
abbrev Yield2 (σ K V β : Type) := K → V → β → σ → Outcome ((Bool × β) × σ)

/-- The struct `Stream[T]` of from.go: it owns one `iter.Seq[T]`. -/
structure Stream (σ : Type) (T : Type) where
  _seq : {β : Type} → Yield σ T β → β → σ → Outcome (β × σ)

/-- The struct `Stream2[K, V]` of functools.go: it owns one `iter.Seq2[K, V]`. -/
structure Stream2 (σ : Type) (K V : Type) where
  _seq : {β : Type} → Yield2 σ K V β → β → σ → Outcome (β × σ)

/-- The struct `Pair[T, U]` of functools.go. -/
structure Pair (T U : Type) where
  Left : T
  Right : U
  deriving DecidableEq

/-- A mutable heap cell of type `α` inside the state `σ`. -/
structure Ref (σ α : Type) where
  get : σ → α
  set : α → σ → σ

/-- The loop `for _, v := range data { if !yield(v) { return } }`. -/
def forSlice {σ T β : Type} (yield : Yield σ T β) : Slice T → β → σ → Outcome (β × σ)
  | [], b, w => .ok (b, w)
  | v :: rest, b, w =>
    match yield v b w with
    | .ok ((true, b1), w1) => forSlice yield rest b1 w1
    | .ok ((false, b1), w1) => .ok (b1, w1)
    | .panic msg => .panic msg
    | .diverge => .diverge

/-- The constructor `FromSlice` of from.go. -/
def FromSlice {σ T : Type} (data : Slice T) : Stream σ T :=
  ⟨fun yield b w => forSlice yield data b w⟩

/-- The method `List` of python_builtin.go: `list = append(list, item)` for every item. -/
def Stream.List {σ T : Type} (s : Stream σ T) (w : σ) : Outcome (Slice T × σ) :=
  s._seq (fun item list w1 => .ok ((true, list ++ [item]), w1)) [] w

/-- The body `if !yield(item) { return }` of a loop that is followed by more code:
the flag added to the local state records that the enclosing function has returned. -/
def yieldOrReturn {σ T β : Type} (yield : Yield σ T β) : Yield σ T (β × Bool) :=
  fun item st w =>
    match yield item st.1 w with
    | .ok ((true, b1), w1) => .ok ((true, (b1, false)), w1)
    | .ok ((false, b1), w1) => .ok ((false, (b1, true)), w1)
    | .panic msg => .panic msg
    | .diverge => .diverge

/-- The function `Map` of python_builtin.go.  The body `if !yield(mapper(item)) { return }`
ends the producer, so the callback answers what `yield` answers. -/
def Map {σ T R : Type} (s : Stream σ T) (mapper : T → R) : Stream σ R :=
  ⟨fun yield b w => s._seq (fun item b1 w1 => yield (mapper item) b1 w1) b w⟩

/-- The method `Peek` of pyfunctional.go; the caller's `action` acts on the state. -/
def Stream.Peek {σ T : Type} (s : Stream σ T) (action : T → σ → σ) : Stream σ T :=
  ⟨fun yield b w => s._seq (fun item b1 w1 => yield item b1 (action item w1)) b w⟩

/-- The loop over `args` in `Chain`: each `arg._seq` is driven in turn, and a `return`
inside the inner loop leaves the whole producer. -/
def Stream.chainArgs {σ T β : Type} (yield : Yield σ T β) :
    Slice (Stream σ T) → β → σ → Outcome (β × σ)
  | [], b, w => .ok (b, w)
  | arg :: rest, b, w =>
    match arg._seq (yieldOrReturn yield) (b, false) w with
    | .ok ((b1, true), w1) => .ok (b1, w1)
    | .ok ((b1, false), w1) => Stream.chainArgs yield rest b1 w1
    | .panic msg => .panic msg
    | .diverge => .diverge

/-- The method `Chain` of python_itertools.go. -/
def Stream.Chain {σ T : Type} (s : Stream σ T) (args : Slice (Stream σ T)) : Stream σ T :=
  ⟨fun yield b w =>
    match s._seq (yieldOrReturn yield) (b, false) w with
    | .ok ((b1, true), w1) => .ok (b1, w1)
    | .ok ((b1, false), w1) => Stream.chainArgs yield args b1 w1
    | .panic msg => .panic msg
    | .diverge => .diverge⟩

/-- The method `Take` of pyfunctional.go.  The local state is `(i, b)`.  The test
`i >= n` comes before `i++`, so the increment stays at or below `n` and cannot overflow. -/
def Stream.Take {σ T : Type} (s : Stream σ T) (n : Int) : Stream σ T :=
  ⟨fun yield b w =>
    match s._seq (fun item (st : Int × _) w1 =>
        if st.1 ≥ n then .ok ((false, st), w1)
        else
          match yield item st.2 w1 with
          | .ok ((true, b1), w2) => .ok ((true, (st.1 + 1, b1)), w2)
          | .ok ((false, b1), w2) => .ok ((false, (st.1, b1)), w2)
          | .panic msg => .panic msg
          | .diverge => .diverge) (0, b) w with
    | .ok (st, w1) => .ok (st.2, w1)
    | .panic msg => .panic msg
    | .diverge => .diverge⟩

/-- The method `Drop` of pyfunctional.go.  The local state is `(i, b)`; `i++` runs only
while `i < n`, so it cannot overflow. -/
def Stream.Drop {σ T : Type} (s : Stream σ T) (n : Int) : Stream σ T :=
  ⟨fun yield b w =>
    match s._seq (fun item (st : Int × _) w1 =>
        if st.1 < n then .ok ((true, (st.1 + 1, st.2)), w1)
        else
          match yield item st.2 w1 with
          | .ok ((c, b1), w2) => .ok ((c, (st.1, b1)), w2)
          | .panic msg => .panic msg
          | .diverge => .diverge) (0, b) w with
    | .ok (st, w1) => .ok (st.2, w1)
    | .panic msg => .panic msg
    | .diverge => .diverge⟩

/-- Go `int` is a 64-bit two's complement integer: the result of an addition wraps. -/
def wrapInt (x : Int) : Int := (x + 2 ^ 63) % 2 ^ 64 - 2 ^ 63

/-- The loop `for i := start; ; i += step { if !yield(i) { return } }` of `Count`, with a
budget of iterations. -/
def Count.loop {σ β : Type} (yield : Yield σ Int β) (step : Int) :
    Nat → Int → β → σ → Outcome (β × σ)
  | 0, _, _, _ => .diverge
  | fuel + 1, i, b, w =>
    match yield i b w with
    | .ok ((true, b1), w1) => Count.loop yield step fuel (wrapInt (i + step)) b1 w1
    | .ok ((false, b1), w1) => .ok (b1, w1)
    | .panic msg => .panic msg
    | .diverge => .diverge

/-- The function `Count` of python_itertools.go. -/
def Count {σ : Type} (fuel : Nat) (start step : Int) : Stream σ Int :=
  ⟨fun yield b w => Count.loop yield step fuel start b w⟩

/-- The loop `for i := len(list) - 1; i >= 0; i-- { if !yield(list[i]) { return } }` of
`Reversed`; the first argument is `i + 1`. -/
def Stream.Reversed.loop {σ T β : Type} (yield : Yield σ T β) (list : Slice T) :
    Nat → β → σ → Outcome (β × σ)
  | 0, b, w => .ok (b, w)
  | i + 1, b, w =>
    match list[i]? with
    | none => .panic "index out of range"
    | some v =>
      match yield v b w with
      | .ok ((true, b1), w1) => Stream.Reversed.loop yield list i b1 w1
      | .ok ((false, b1), w1) => .ok (b1, w1)
      | .panic msg => .panic msg
      | .diverge => .diverge

/-- The method `Reversed` of python_builtin.go: `list := s.List()` runs when the stream is
built, outside the closure. -/
def Stream.Reversed {σ T : Type} (s : Stream σ T) (w : σ) : Outcome (Stream σ T × σ) :=
  match s.List w with
  | .ok (list, w1) =>
    .ok (⟨fun yield b w2 => Stream.Reversed.loop yield list list.length b w2⟩, w1)
  | .panic msg => .panic msg
  | .diverge => .diverge

/-- The method `Sorted` of python_builtin.go.  `slices.SortFunc` belongs to the Go standard
library and is a parameter (`sortFunc items cmp` is the slice after sorting in place). -/
def Stream.Sorted {σ T : Type} (sortFunc : Slice T → (T → T → Int) → Slice T)
    (s : Stream σ T) (cmp : T → T → Int) (w : σ) : Outcome (Stream σ T × σ) :=
  match s.List w with
  | .ok (items, w1) =>
    .ok (⟨fun yield b w2 => forSlice yield (sortFunc items cmp) b w2⟩, w1)
  | .panic msg => .panic msg
  | .diverge => .diverge

/-- The method `SortedStable` of python_builtin.go, with `slices.SortStableFunc` as a
parameter. -/
def Stream.SortedStable {σ T : Type} (sortStableFunc : Slice T → (T → T → Int) → Slice T)
    (s : Stream σ T) (cmp : T → T → Int) (w : σ) : Outcome (Stream σ T × σ) :=
  match s.List w with
  | .ok (items, w1) =>
    .ok (⟨fun yield b w2 => forSlice yield (sortStableFunc items cmp) b w2⟩, w1)
  | .panic msg => .panic msg
  | .diverge => .diverge

/-- The function `Sort` of python_builtin.go (`Sort` is a reserved word of Lean), with
`slices.Sort` as a parameter. -/
def SortStream {σ T : Type} (slicesSort : Slice T → Slice T) (s : Stream σ T) (w : σ) :
    Outcome (Stream σ T × σ) :=
  match s.List w with
  | .ok (items, w1) => .ok (FromSlice (slicesSort items), w1)
  | .panic msg => .panic msg
  | .diverge => .diverge

/-- The method `Enumerate` of python_builtin.go.  The counter `i := 0` is declared outside
the closure, so it is a heap cell shared by every traversal; the caller supplies its
address `i`. -/
def Stream.Enumerate {σ T : Type} (s : Stream σ T) (i : Ref σ Int) (w : σ) :
    Outcome (Stream2 σ Int T × σ) :=
  .ok (⟨fun yield b w1 =>
      s._seq (fun item b1 w2 =>
        match yield (i.get w2) item b1 w2 with
        | .ok ((true, b2), w3) => .ok ((true, b2), i.set (wrapInt (i.get w3 + 1)) w3)
        | .ok ((false, b2), w3) => .ok ((false, b2), w3)
        | .panic msg => .panic msg
        | .diverge => .diverge) b w1⟩, i.set 0 w)

/-- The function `ToPairStream` of functools.go. -/
def ToPairStream {σ K V : Type} (s : Stream2 σ K V) : Stream σ (Pair K V) :=
  ⟨fun yield b w => s._seq (fun left right b1 w1 => yield ⟨left, right⟩ b1 w1) b w⟩

/-! ## The channel bridge

`ToChannel` starts a goroutine that sends every element of the stream into an unbuffered
channel and then closes it.  This section gives what the receivers get from the channel of
a producer that terminates: the goroutine is run when it is started, and the elements it
hands over wait in `queue`, in the order of the sends, until a receive takes them.  It
says nothing about where the goroutine stands at a given moment, and for a producer that
does not terminate `ToChannel` diverges here, while in Go it returns at once.  The section
"The channel bridge, step by step" below has the goroutine as a process of its own. -/

/-- State of a `chan T` with a single sender. -/
structure Chan (T : Type) where
  queue : Slice T
  closed : Bool
  deriving DecidableEq

/-- The send `ch <- item` of the sender goroutine. -/
def Chan.send {σ T : Type} (ch : Ref σ (Chan T)) (item : T) (w : σ) : σ :=
  ch.set ⟨(ch.get w).queue ++ [item], (ch.get w).closed⟩ w

/-- The call `close(ch)`. -/
def Chan.close {σ T : Type} (ch : Ref σ (Chan T)) (w : σ) : σ :=
  ch.set ⟨(ch.get w).queue, true⟩ w

/-- The receive `item, ok := <-ch`: `some item` stands for `(item, true)` and `none` for
`(zero value, false)`; no caller reads the value when `ok` is false.  A receive on an
open channel nobody sends to blocks forever. -/
def Chan.recv {σ T : Type} (ch : Ref σ (Chan T)) (w : σ) : Outcome (Option T × σ) :=
  match (ch.get w).queue with
  | item :: rest => .ok (some item, ch.set ⟨rest, (ch.get w).closed⟩ w)
  | [] => if (ch.get w).closed then .ok (none, w) else .diverge

/-- The method `ToChannel` of to.go; `ch` is the address of the channel that
`make(chan T)` allocates. -/
def Stream.ToChannel {σ T : Type} (s : Stream σ T) (ch : Ref σ (Chan T)) (w : σ) :
    Outcome (Ref σ (Chan T) × σ) :=
  match s._seq (fun item (_ : Unit) w1 => .ok ((true, ()), Chan.send ch item w1)) ()
      (ch.set ⟨[], false⟩ w) with
  | .ok (_, w1) => .ok (ch, Chan.close ch w1)
  | .panic msg => .panic msg
  | .diverge => .diverge

/-- The loop `for val := range ch { if !yield(val) { return } }` of `FromChannel`, with a
budget of iterations. -/
def FromChannel.loop {σ T β : Type} (yield : Yield σ T β) (ch : Ref σ (Chan T)) :
    Nat → β → σ → Outcome (β × σ)
  | 0, _, _ => .diverge
  | fuel + 1, b, w =>
    match Chan.recv ch w with
    | .ok (some val, w1) =>
      match yield val b w1 with
      | .ok ((true, b1), w2) => FromChannel.loop yield ch fuel b1 w2
      | .ok ((false, b1), w2) => .ok (b1, w2)
      | .panic msg => .panic msg
      | .diverge => .diverge
    | .ok (none, w1) => .ok (b, w1)
    | .panic msg => .panic msg
    | .diverge => .diverge

/-- The constructor `FromChannel` of from.go. -/
def FromChannel {σ T : Type} (fuel : Nat) (ch : Ref σ (Chan T)) : Stream σ T :=
  ⟨fun yield b w => FromChannel.loop yield ch fuel b w⟩

/-- The loop `for { ... }` of `Zip`, with a budget of iterations. -/
def Zip.loop {σ K V β : Type} (yield : Yield2 σ K V β) (leftChan : Ref σ (Chan K))
    (rightChan : Ref σ (Chan V)) : Nat → β → σ → Outcome (β × σ)
  | 0, _, _ => .diverge
  | fuel + 1, b, w =>
    match Chan.recv leftChan w with
    | .ok (left, w1) =>
      match Chan.recv rightChan w1 with
      | .ok (right, w2) =>
        match left, right with
        | some l, some r =>
          match yield l r b w2 with
          | .ok ((true, b1), w3) => Zip.loop yield leftChan rightChan fuel b1 w3
          | .ok ((false, b1), w3) => .ok (b1, w3)
          | .panic msg => .panic msg
          | .diverge => .diverge
        | _, _ => .ok (b, w2)
      | .panic msg => .panic msg
      | .diverge => .diverge
    | .panic msg => .panic msg
    | .diverge => .diverge

/-- The function `Zip` of python_builtin.go: both channels are opened when the stream is
built, outside the closure. -/
def Zip {σ K V : Type} (fuel : Nat) (leftChan : Ref σ (Chan K)) (rightChan : Ref σ (Chan V))
    (s1 : Stream σ K) (s2 : Stream σ V) (w : σ) : Outcome (Stream2 σ K V × σ) :=
  match s1.ToChannel leftChan w with
  | .ok (leftChan, w1) =>
    match s2.ToChannel rightChan w1 with
    | .ok (rightChan, w2) =>
      .ok (⟨fun yield b w3 => Zip.loop yield leftChan rightChan fuel b w3⟩, w2)
    | .panic msg => .panic msg
    | .diverge => .diverge
  | .panic msg => .panic msg
  | .diverge => .diverge

/-- The loop `for { ... }` of `ZipLongest`, with a budget of iterations. -/
def ZipLongest.loop {σ T β : Type} (yield : Yield σ (Slice T) β) (mainChan otherChan : Ref σ (Chan T))
    (fillValue : T) : Nat → β → σ → Outcome (β × σ)
  | 0, _, _ => .diverge
  | fuel + 1, b, w =>
    match Chan.recv mainChan w with
    | .ok (mainItem, w1) =>
      match Chan.recv otherChan w1 with
      | .ok (otherItem, w2) =>
        if mainItem.isNone && otherItem.isNone then .ok (b, w2)
        else
          match yield [mainItem.getD fillValue, otherItem.getD fillValue] b w2 with
          | .ok ((true, b1), w3) => ZipLongest.loop yield mainChan otherChan fillValue fuel b1 w3
          | .ok ((false, b1), w3) => .ok (b1, w3)
          | .panic msg => .panic msg
          | .diverge => .diverge
      | .panic msg => .panic msg
      | .diverge => .diverge
    | .panic msg => .panic msg
    | .diverge => .diverge

/-- The function `ZipLongest` of python_itertools.go: the channels are opened inside the
closure, at every traversal. -/
def ZipLongest {σ T : Type} (fuel : Nat) (mainChan otherChan : Ref σ (Chan T))
    (s other : Stream σ T) (fillValue : T) : Stream σ (Slice T) :=
  ⟨fun yield b w =>
    match s.ToChannel mainChan w with
    | .ok (mainChan, w1) =>
      match other.ToChannel otherChan w1 with
      | .ok (otherChan, w2) => ZipLongest.loop yield mainChan otherChan fillValue fuel b w2
      | .panic msg => .panic msg
      | .diverge => .diverge
    | .panic msg => .panic msg
    | .diverge => .diverge⟩

/-! ## Decomposition (haskell.go) -/

/-- The method `Uncons` of haskell.go; `fuel` is the budget of the `FromChannel` loop of
the stream it returns. -/
def Stream.Uncons {σ T : Type} (s : Stream σ T) (fuel : Nat) (ch : Ref σ (Chan T)) (w : σ) :
    Outcome ((T × Stream σ T) × σ) :=
  match s.ToChannel ch w with
  | .ok (ch, w1) =>
    match Chan.recv ch w1 with
    | .ok (some item, w2) => .ok ((item, FromChannel fuel ch), w2)
    | .ok (none, _) => .panic "Stream is empty"
    | .panic msg => .panic msg
    | .diverge => .diverge
  | .panic msg => .panic msg
  | .diverge => .diverge

/-- The method `Head` of haskell.go. -/
def Stream.Head {σ T : Type} (s : Stream σ T) (fuel : Nat) (ch : Ref σ (Chan T)) (w : σ) :
    Outcome (T × σ) :=
  match s.Uncons fuel ch w with
  | .ok ((x, _), w1) => .ok (x, w1)
  | .panic msg => .panic msg
  | .diverge => .diverge

/-- The method `Tail` of haskell.go. -/
def Stream.Tail {σ T : Type} (s : Stream σ T) (fuel : Nat) (ch : Ref σ (Chan T)) (w : σ) :
    Outcome (Stream σ T × σ) :=
  match s.Uncons fuel ch w with
  | .ok ((_, xs), w1) => .ok (xs, w1)
  | .panic msg => .panic msg
  | .diverge => .diverge

/-- The method `Unsnoc` of haskell.go. -/
def Stream.Unsnoc {σ T : Type} (s : Stream σ T) (w : σ) : Outcome ((Stream σ T × T) × σ) :=
  match s.List w with
  | .ok (list, w1) =>
    if h : list.length = 0 then .panic "Stream is empty"
    else .ok ((FromSlice (list.take (list.length - 1)),
                list.get ⟨list.length - 1, Nat.sub_lt (Nat.pos_of_ne_zero h) Nat.one_pos⟩), w1)
  | .panic msg => .panic msg
  | .diverge => .diverge

/-- The method `Init` of haskell.go. -/
def Stream.Init {σ T : Type} (s : Stream σ T) (w : σ) : Outcome (Stream σ T × σ) :=
  match s.Unsnoc w with
  | .ok ((xs, _), w1) => .ok (xs, w1)
  | .panic msg => .panic msg
  | .diverge => .diverge

/-- The method `Last` of haskell.go. -/
def Stream.Last {σ T : Type} (s : Stream σ T) (w : σ) : Outcome (T × σ) :=
  match s.Unsnoc w with
  | .ok ((_, x), w1) => .ok (x, w1)
  | .panic msg => .panic msg
  | .diverge => .diverge

/-! ## Heap cells -/

/-- A cell behaves as a variable: what was stored is read back, and a later store
overwrites an earlier one. -/
structure Ref.Lawful {σ α : Type} (r : Ref σ α) : Prop where
  get_set : ∀ (a : α) (w : σ), r.get (r.set a w) = a
  set_set : ∀ (a a1 : α) (w : σ), r.set a (r.set a1 w) = r.set a w

/-- Two cells are distinct: storing into one leaves the content of the other, and the
order of two stores into them does not matter. -/
structure Ref.Disjoint {σ α γ : Type} (r1 : Ref σ α) (r2 : Ref σ γ) : Prop where
  get_set_left : ∀ (c : γ) (w : σ), r1.get (r2.set c w) = r1.get w
  get_set_right : ∀ (a : α) (w : σ), r2.get (r1.set a w) = r2.get w
  set_comm : ∀ (a : α) (c : γ) (w : σ), r1.set a (r2.set c w) = r2.set c (r1.set a w)

/-! ## Finite streams -/

/-- Predicate `s.Yields xs`: the stream `s` is a finite stream with elements `xs`: whoever drives
it is offered exactly `xs`, in order, until the callback answers `false`, and the
producer itself touches nothing of the state. -/
def Stream.Yields {σ T : Type} (s : Stream σ T) (xs : Slice T) : Prop :=
  ∀ {β : Type} (yield : Yield σ T β) (b : β) (w : σ), s._seq yield b w = forSlice yield xs b w

/-- The list the documentation of `ZipLongest` describes: entry `i` is
`[xs[i], ys[i]]`, with `fill` in place of an element past the end of its side, up to the
length of the longer side. -/
def zipLongestSpec {T : Type} (fill : T) : Slice T → Slice T → Slice (Slice T)
  | [], [] => []
  | x :: xs, [] => [x, fill] :: zipLongestSpec fill xs []
  | [], y :: ys => [fill, y] :: zipLongestSpec fill [] ys
  | x :: xs, y :: ys => [x, y] :: zipLongestSpec fill xs ys

/-- The cell that is the first component of a pair of cells. -/
def Ref.fst {α γ : Type} : Ref (α × γ) α := ⟨Prod.fst, fun a w => (a, w.2)⟩

/-- The cell that is the second component of a pair of cells. -/
def Ref.snd {α γ : Type} : Ref (α × γ) γ := ⟨Prod.snd, fun c w => (w.1, c)⟩

/-- The cell that is the whole state. -/
def Ref.self {α : Type} : Ref α α := ⟨id, fun a _ => a⟩

/-- The state a call left behind, if it returned. -/
def Outcome.state {α : Type u} {σ : Type} : Outcome (α × σ) → Option σ
  | .ok (_, w) => some w
  | _ => none

/-- An action for `Peek` that records its argument: the state is the log of the calls
made so far. -/
def recordCall {T : Type} (item : T) (log : Slice T) : Slice T := log ++ [item]

/-! ## Filtering, windowing, grouping and joining operators -/

/-- The method `Filter` of python_builtin.go. -/
def Stream.Filter {σ T : Type} (s : Stream σ T) (predicate : T → Bool) : Stream σ T :=
  ⟨fun yield b w =>
    s._seq (fun item b1 w1 =>
      if predicate item then yield item b1 w1 else .ok ((true, b1), w1)) b w⟩

/-- The function `Batched` of python_itertools.go.  The local state is
`(batch, b, returned)`; `batch = nil` follows a window that was handed on, and the window
left over when the source ends is offered without looking at the answer of `yield`. -/
def Batched {σ T : Type} (s : Stream σ T) (n : Int) : Stream σ (Slice T) :=
  ⟨fun yield b w =>
    match s._seq (fun item (st : Slice T × _ × Bool) w1 =>
        if ((st.1 ++ [item]).length : Int) = n then
          match yield (st.1 ++ [item]) st.2.1 w1 with
          | .ok ((true, b1), w2) => .ok ((true, ([], b1, false)), w2)
          | .ok ((false, b1), w2) => .ok ((false, (st.1 ++ [item], b1, true)), w2)
          | .panic msg => .panic msg
          | .diverge => .diverge
        else .ok ((true, (st.1 ++ [item], st.2.1, false)), w1)) ([], b, false) w with
    | .ok ((batch, b1, returned), w1) =>
      if returned then .ok (b1, w1)
      else if batch.length > 0 then
        match yield batch b1 w1 with
        | .ok ((_, b2), w2) => .ok (b2, w2)
        | .panic msg => .panic msg
        | .diverge => .diverge
      else .ok (b1, w1)
    | .panic msg => .panic msg
    | .diverge => .diverge⟩

/-- The function `PairWise` of python_itertools.go.  `default` is the zero value of `T`
(`var zero T`).  Inside the loop over `Batched(s, 2)`, the pair `(item[0], item[1])` is
offered when the window has two elements, and the pair `(item[0], zero)` is offered
after it in every case. -/
def PairWise {σ T : Type} [Inhabited T] (s : Stream σ T) : Stream σ (Pair T T) :=
  ⟨fun yield b w =>
    (Batched s 2)._seq (fun item b1 w1 =>
      match (if item.length = 2 then
              match item[0]?, item[1]? with
              | some x0, some x1 => yield ⟨x0, x1⟩ b1 w1
              | _, _ => .panic "index out of range"
            else .ok ((true, b1), w1)) with
      | .ok ((true, b2), w2) =>
        match item[0]? with
        | some x0 => yield ⟨x0, default⟩ b2 w2
        | none => .panic "index out of range"
      | .ok ((false, b2), w2) => .ok ((false, b2), w2)
      | .panic msg => .panic msg
      | .diverge => .diverge) b w⟩

/-- The method `Accumulate` of python_itertools.go.  The local state is `(result, b)`,
and `var result T` starts at the zero value `default`. -/
def Stream.Accumulate {σ T : Type} [Inhabited T] (s : Stream σ T) (fn : T → T → T) :
    Stream σ T :=
  ⟨fun yield b w =>
    match s._seq (fun item (st : T × _) w1 =>
        match yield (fn st.1 item) st.2 w1 with
        | .ok ((c, b1), w2) => .ok ((c, (fn st.1 item, b1)), w2)
        | .panic msg => .panic msg
        | .diverge => .diverge) (default, b) w with
    | .ok (st, w1) => .ok (st.2, w1)
    | .panic msg => .panic msg
    | .diverge => .diverge⟩

/-- The method `ISlice` of python_itertools.go.  The local state is `(i, b)`; the test
`i >= stop` comes after the element was offered and after `i++`. -/
def Stream.ISlice {σ T : Type} (s : Stream σ T) (start stop : Int) : Stream σ T :=
  ⟨fun yield b w =>
    match s._seq (fun item (st : Int × _) w1 =>
        match (if st.1 ≥ start then yield item st.2 w1 else .ok ((true, st.2), w1)) with
        | .ok ((true, b1), w2) =>
          if wrapInt (st.1 + 1) ≥ stop then .ok ((false, (wrapInt (st.1 + 1), b1)), w2)
          else .ok ((true, (wrapInt (st.1 + 1), b1)), w2)
        | .ok ((false, b1), w2) => .ok ((false, (st.1, b1)), w2)
        | .panic msg => .panic msg
        | .diverge => .diverge) (0, b) w with
    | .ok (st, w1) => .ok (st.2, w1)
    | .panic msg => .panic msg
    | .diverge => .diverge⟩

/-- The function `GroupBy` of python_itertools.go.  `sprintf` stands for
`fmt.Sprintf("%#v", ·)` of the Go standard library; `keyFunc` may be `nil` (`none`), which
the code replaces by the identity.  The local state is `(current, acc, b)`.  The answer
of `yield(acc)` is not looked at, and nothing follows the loop. -/
def GroupBy {σ T : Type} (sprintf : T → String) (s : Stream σ T) (keyFunc : Option (T → T)) :
    Stream σ (Slice T) :=
  ⟨fun yield b w =>
    match s._seq (fun item (st : String × Slice T × _) w1 =>
        if sprintf (keyFunc.getD id item) ≠ st.1 then
          if st.2.1.length > 0 then
            match yield st.2.1 st.2.2 w1 with
            | .ok ((_, b1), w2) =>
              .ok ((true, (sprintf (keyFunc.getD id item), [item], b1)), w2)
            | .panic msg => .panic msg
            | .diverge => .diverge
          else .ok ((true, (sprintf (keyFunc.getD id item), [item], st.2.2)), w1)
        else .ok ((true, (st.1, st.2.1 ++ [item], st.2.2)), w1)) ("", [], b) w with
    | .ok (st, w1) => .ok (st.2.2, w1)
    | .panic msg => .panic msg
    | .diverge => .diverge⟩

/-- The method `MakeString` of pyfunctional.go; `sprint` stands for `fmt.Sprint` of the
Go standard library (the identity on strings). -/
def Stream.MakeString {σ T : Type} (sprint : T → String) (s : Stream σ T) (separator : String)
    (w : σ) : Outcome (String × σ) :=
  s._seq (fun item (result : String) w1 =>
    .ok ((true, (if result ≠ "" then result ++ separator else result) ++ sprint item), w1)) "" w

/-- The method `Join` of pyfunctional.go. -/
def Stream.Join {σ T : Type} (sprint : T → String) (s : Stream σ T) (separator : String)
    (w : σ) : Outcome (String × σ) :=
  s.MakeString sprint separator w

/-- The method `TakeWhile` of python_itertools.go. -/
def Stream.TakeWhile {σ T : Type} (s : Stream σ T) (predicate : T → Bool) : Stream σ T :=
  ⟨fun yield b w =>
    s._seq (fun item b1 w1 =>
      if !predicate item then .ok ((false, b1), w1) else yield item b1 w1) b w⟩

/-- The method `DropWhile` of python_itertools.go.  The local state is `(skip, b)`. -/
def Stream.DropWhile {σ T : Type} (s : Stream σ T) (predicate : T → Bool) : Stream σ T :=
  ⟨fun yield b w =>
    match s._seq (fun item (st : Bool × _) w1 =>
        if st.1 && predicate item then .ok ((true, st), w1)
        else
          match yield item st.2 w1 with
          | .ok ((c, b1), w2) => .ok ((c, (false, b1)), w2)
          | .panic msg => .panic msg
          | .diverge => .diverge) (true, b) w with
    | .ok (st, w1) => .ok (st.2, w1)
    | .panic msg => .panic msg
    | .diverge => .diverge⟩

/-- The function `DistinctBy` of pyfunctional.go.  The map `seen := make(map[R]bool)` is
created outside the closure: it is a heap cell, at the address `seen`, that every
traversal shares.  A `map[R]bool` is a function that answers `false` for a key never
stored. -/
def DistinctBy {σ T R : Type} [DecidableEq R] (s : Stream σ T) (keyFunc : T → R)
    (seen : Ref σ (R → Bool)) (w : σ) : Outcome (Stream σ T × σ) :=
  .ok (⟨fun yield b w1 =>
      s._seq (fun item b1 w2 =>
        if !(seen.get w2 (keyFunc item)) then
          yield item b1 (seen.set (Function.update (seen.get w2) (keyFunc item) true) w2)
        else .ok ((true, b1), w2)) b w1⟩, seen.set (fun _ => false) w)

/-- The function `Unique` of pyfunctional.go. -/
def Unique {σ T R : Type} [DecidableEq R] (s : Stream σ T) (keyFunc : T → R)
    (seen : Ref σ (R → Bool)) (w : σ) : Outcome (Stream σ T × σ) :=
  DistinctBy s keyFunc seen w

/-- The windows `Batched` hands on, given the window under construction and the elements
still to come (a helper for stating what the loop of `Batched` computes). -/
def batchedWindows {T : Type} (n : Int) : Slice T → Slice T → Slice (Slice T)
  | batch, [] => if batch.length > 0 then [batch] else []
  | batch, x :: rest =>
    if ((batch ++ [x]).length : Int) = n then (batch ++ [x]) :: batchedWindows n [] rest
    else batchedWindows n (batch ++ [x]) rest

/-- The rendering `fmt.Sprintf("%#v", b)` of a Go `bool`. -/
def sprintfBool (b : Bool) : String := if b then "true" else "false"

/-- The elements `DistinctBy` hands on, given the elements `pre` it has gone through and
those still to come: an element is kept when no element before it has its key (a helper
for stating what the loop of `DistinctBy` computes). -/
def keptFirst {T R : Type} [DecidableEq R] (k : T → R) : Slice T → Slice T → Slice T
  | _, [] => []
  | pre, x :: rest =>
    if pre.all (fun y => k y != k x) then x :: keptFirst k (pre ++ [x]) rest
    else keptFirst k (pre ++ [x]) rest

/-! ## Terminal actions and `Chunked` -/

/-- The method `Find` of pyfunctional.go.  The local state is the item the loop returned
with, if it did; `default` is the zero value of `T` (`var zero T`). -/
def Stream.Find {σ T : Type} [Inhabited T] (s : Stream σ T) (predicate : T → Bool) (w : σ) :
    Outcome ((T × Bool) × σ) :=
  match s._seq (fun item (st : Option T) w1 =>
      if predicate item then .ok ((false, some item), w1) else .ok ((true, st), w1)) none w with
  | .ok (some item, w1) => .ok ((item, true), w1)
  | .ok (none, w1) => .ok ((default, false), w1)
  | .panic msg => .panic msg
  | .diverge => .diverge

/-- The method `Exists` of pyfunctional.go.  The local state tells whether the loop
returned `true`. -/
def Stream.Exists {σ T : Type} (s : Stream σ T) (predicate : T → Bool) (w : σ) :
    Outcome (Bool × σ) :=
  s._seq (fun item (st : Bool) w1 =>
    if predicate item then .ok ((false, true), w1) else .ok ((true, st), w1)) false w

/-- The method `Any` of python_builtin.go. -/
def Stream.Any {σ T : Type} (s : Stream σ T) (predicate : T → Bool) (w : σ) :
    Outcome (Bool × σ) :=
  s._seq (fun item (st : Bool) w1 =>
    if predicate item then .ok ((false, true), w1) else .ok ((true, st), w1)) false w

/-- The function `Chunked` of missing.go.  The local state is `(chunk, b, returned)`; the
chunk left over when the source ends is offered without looking at the answer of
`yield`. -/
def Chunked {σ T : Type} (s : Stream σ T) (predicate : T → Bool) : Stream σ (Slice T) :=
  ⟨fun yield b w =>
    match s._seq (fun item (st : Slice T × _ × Bool) w1 =>
        if predicate item && decide (st.1.length > 0) then
          match yield st.1 st.2.1 w1 with
          | .ok ((true, b1), w2) => .ok ((true, ([item], b1, false)), w2)
          | .ok ((false, b1), w2) => .ok ((false, (st.1, b1, true)), w2)
          | .panic msg => .panic msg
          | .diverge => .diverge
        else .ok ((true, (st.1 ++ [item], st.2.1, false)), w1)) ([], b, false) w with
    | .ok ((chunk, b1, returned), w1) =>
      if returned then .ok (b1, w1)
      else if chunk.length > 0 then
        match yield chunk b1 w1 with
        | .ok ((_, b2), w2) => .ok (b2, w2)
        | .panic msg => .panic msg
        | .diverge => .diverge
      else .ok (b1, w1)
    | .panic msg => .panic msg
    | .diverge => .diverge⟩

/-- The method `Max` of python_builtin.go.  The local state is `(max, first)`, and
`var max T` starts at the zero value `default`. -/
def Stream.Max {σ T : Type} [Inhabited T] (s : Stream σ T) (comparator : T → T → Int) (w : σ) :
    Outcome (T × σ) :=
  match s._seq (fun item (st : T × Bool) w1 =>
      if st.2 then .ok ((true, (item, false)), w1)
      else if comparator item st.1 > 0 then .ok ((true, (item, st.2)), w1)
      else .ok ((true, st), w1)) (default, true) w with
  | .ok (st, w1) => .ok (st.1, w1)
  | .panic msg => .panic msg
  | .diverge => .diverge

/-- The method `Min` of python_builtin.go.  The local state is `(min, first)`. -/
def Stream.Min {σ T : Type} [Inhabited T] (s : Stream σ T) (comparator : T → T → Int) (w : σ) :
    Outcome (T × σ) :=
  match s._seq (fun item (st : T × Bool) w1 =>
      if st.2 then .ok ((true, (item, false)), w1)
      else if comparator item st.1 < 0 then .ok ((true, (item, st.2)), w1)
      else .ok ((true, st), w1)) (default, true) w with
  | .ok (st, w1) => .ok (st.1, w1)
  | .panic msg => .panic msg
  | .diverge => .diverge

/-- The answers the loop of `FromSlice` receives from its callback, in the order of the
calls: `forSlice` with the value of each `yield(v)` written down. -/
def forSliceAnswers {σ T β : Type} (yield : Yield σ T β) : Slice T → β → σ → List Bool
  | [], _, _ => []
  | v :: rest, b, w =>
    match yield v b w with
    | .ok ((true, b1), w1) => true :: forSliceAnswers yield rest b1 w1
    | .ok ((false, _), _) => [false]
    | .panic _ => []
    | .diverge => []

/-- The chunks `Chunked` hands on, given the chunk under construction and the elements
still to come (a helper for stating what the loop of `Chunked` computes). -/
def chunkedWindows {T : Type} (p : T → Bool) : Slice T → Slice T → Slice (Slice T)
  | chunk, [] => if chunk.length > 0 then [chunk] else []
  | chunk, x :: rest =>
    if p x && decide (chunk.length > 0) then chunk :: chunkedWindows p [x] rest
    else chunkedWindows p (chunk ++ [x]) rest

/-- A comparator in the sense of Go (`cmp(a, b)` negative, zero or positive) that is a
total preorder: swapping the arguments flips the sign, and `cmp(a, b) <= 0` is
transitive. -/
structure IsTotalPreorderCmp {T : Type} (c : T → T → Int) : Prop where
  flip : ∀ x y, c x y < 0 ↔ c y x > 0
  trans : ∀ x y z, c x y ≤ 0 → c y z ≤ 0 → c x z ≤ 0

/-! ## The channel bridge, step by step

Here the goroutine that `ToChannel` starts is a process of its own.  Between two hand-offs
nothing observes it, so it is advanced to its next blocking point as soon as it can run:
when it is started, and each time a receive has taken the element it was offering.  The
cell `Sender` says where it stands; the channel is closed exactly when the sender has
exited, since `close(ch)` is the last statement of the goroutine.

A producer cannot be suspended in the middle of `s._seq` in this embedding.  The sender
suspended in its `(k+1)`-th send is therefore represented by `k`, and running it up to
that send is running the producer from the start and leaving it at that element
(`Stream.sendAt`).  This is the goroutine of the code for producers whose elements do not
depend on the state and that do not write to it (`FromSlice`, `Count`, and the streaming
operators over them); what an action inside a bridged producer does to the state is not
part of this section. -/

/-- Where the goroutine started by `ToChannel` stands: still inside `s._seq` before a
send, blocked in `ch <- item` after `handed` completed sends, or returned after
`close(ch)`. -/
inductive Sender (T : Type) where
  | running
  | parked (item : T) (handed : Nat)
  | exited
  deriving DecidableEq

/-- A `chan T` together with the goroutine that sends into it: the stream the goroutine
ranges over and the cell that says where the goroutine stands. -/
structure LiveChan (σ T : Type) where
  producer : Stream σ T
  sender : Ref σ (Sender T)

/-- The element of the `(k+1)`-th send `ch <- item` of the goroutine, `none` when the loop
`for item := range s._seq` ends after `k` elements. -/
def Stream.sendAt {σ T : Type} (s : Stream σ T) (k : Nat) (w : σ) : Outcome (Option T) :=
  match s._seq (fun item (st : Nat × Option T) w1 =>
      if st.1 = k then .ok ((false, (st.1, some item)), w1)
      else .ok ((true, (st.1 + 1, none)), w1)) (0, none) w with
  | .ok (st, _) => .ok st.2
  | .panic msg => .panic msg
  | .diverge => .diverge

/-- The goroutine runs on after `handed` completed sends: it blocks in its next send, or
the loop ends and it closes the channel and returns, or it keeps running without ever
reaching a send. -/
def LiveChan.resume {σ T : Type} (ch : LiveChan σ T) (handed : Nat) (w : σ) :
    Outcome (Unit × σ) :=
  match ch.producer.sendAt handed w with
  | .ok (some item) => .ok ((), ch.sender.set (.parked item handed) w)
  | .ok none => .ok ((), ch.sender.set .exited w)
  | .panic msg => .panic msg
  | .diverge => .ok ((), ch.sender.set .running w)

/-- The receive `item, ok := <-ch` (`some item` for `(item, true)`, `none` for
`(zero value, false)`): it takes the element of a blocked sender, which then runs on; on
a closed channel it returns at once; it blocks for ever when the sender runs without
sending. -/
def LiveChan.recv {σ T : Type} (ch : LiveChan σ T) (w : σ) : Outcome (Option T × σ) :=
  match ch.sender.get w with
  | .parked item handed =>
    match ch.resume (handed + 1) w with
    | .ok (_, w1) => .ok (some item, w1)
    | .panic msg => .panic msg
    | .diverge => .diverge
  | .exited => .ok (none, w)
  | .running => .diverge

/-- The method `ToChannel` of to.go, with the goroutine as a process; `cell` is where the
state of the new goroutine is kept, one cell for each goroutine that is started.  The call
returns once the goroutine is started. -/
def Live.ToChannel {σ T : Type} (s : Stream σ T) (cell : Ref σ (Sender T)) (w : σ) :
    Outcome (LiveChan σ T × σ) :=
  match LiveChan.resume ⟨s, cell⟩ 0 w with
  | .ok (_, w1) => .ok (⟨s, cell⟩, w1)
  | .panic msg => .panic msg
  | .diverge => .diverge

/-- The loop `for val := range ch { if !yield(val) { return } }` of `FromChannel`, with a
budget of iterations. -/
def Live.FromChannel.loop {σ T β : Type} (yield : Yield σ T β) (ch : LiveChan σ T) :
    Nat → β → σ → Outcome (β × σ)
  | 0, _, _ => .diverge
  | fuel + 1, b, w =>
    match ch.recv w with
    | .ok (some val, w1) =>
      match yield val b w1 with
      | .ok ((true, b1), w2) => Live.FromChannel.loop yield ch fuel b1 w2
      | .ok ((false, b1), w2) => .ok (b1, w2)
      | .panic msg => .panic msg
      | .diverge => .diverge
    | .ok (none, w1) => .ok (b, w1)
    | .panic msg => .panic msg
    | .diverge => .diverge

/-- The constructor `FromChannel` of from.go over a channel with its sender. -/
def Live.FromChannel {σ T : Type} (fuel : Nat) (ch : LiveChan σ T) : Stream σ T :=
  ⟨fun yield b w => Live.FromChannel.loop yield ch fuel b w⟩

/-- The loop `for { ... }` of `Zip`, with a budget of iterations: both receives come
before the test of `leftOpen` and `rightOpen`. -/
def Live.Zip.loop {σ K V β : Type} (yield : Yield2 σ K V β) (leftChan : LiveChan σ K)
    (rightChan : LiveChan σ V) : Nat → β → σ → Outcome (β × σ)
  | 0, _, _ => .diverge
  | fuel + 1, b, w =>
    match leftChan.recv w with
    | .ok (left, w1) =>
      match rightChan.recv w1 with
      | .ok (right, w2) =>
        match left, right with
        | some l, some r =>
          match yield l r b w2 with
          | .ok ((true, b1), w3) => Live.Zip.loop yield leftChan rightChan fuel b1 w3
          | .ok ((false, b1), w3) => .ok (b1, w3)
          | .panic msg => .panic msg
          | .diverge => .diverge
        | _, _ => .ok (b, w2)
      | .panic msg => .panic msg
      | .diverge => .diverge
    | .panic msg => .panic msg
    | .diverge => .diverge

/-- The function `Zip` of python_builtin.go over channels with their senders: both
goroutines are started when the stream is built. -/
def Live.Zip {σ K V : Type} (fuel : Nat) (leftCell : Ref σ (Sender K))
    (rightCell : Ref σ (Sender V)) (s1 : Stream σ K) (s2 : Stream σ V) (w : σ) :
    Outcome (Stream2 σ K V × σ) :=
  match Live.ToChannel s1 leftCell w with
  | .ok (leftChan, w1) =>
    match Live.ToChannel s2 rightCell w1 with
    | .ok (rightChan, w2) =>
      .ok (⟨fun yield b w3 => Live.Zip.loop yield leftChan rightChan fuel b w3⟩, w2)
    | .panic msg => .panic msg
    | .diverge => .diverge
  | .panic msg => .panic msg
  | .diverge => .diverge

/-- The loop `for { ... }` of `ZipLongest`, with a budget of iterations. -/
def Live.ZipLongest.loop {σ T β : Type} (yield : Yield σ (Slice T) β)
    (mainChan otherChan : LiveChan σ T) (fillValue : T) : Nat → β → σ → Outcome (β × σ)
  | 0, _, _ => .diverge
  | fuel + 1, b, w =>
    match mainChan.recv w with
    | .ok (mainItem, w1) =>
      match otherChan.recv w1 with
      | .ok (otherItem, w2) =>
        if mainItem.isNone && otherItem.isNone then .ok (b, w2)
        else
          match yield [mainItem.getD fillValue, otherItem.getD fillValue] b w2 with
          | .ok ((true, b1), w3) =>
            Live.ZipLongest.loop yield mainChan otherChan fillValue fuel b1 w3
          | .ok ((false, b1), w3) => .ok (b1, w3)
          | .panic msg => .panic msg
          | .diverge => .diverge
      | .panic msg => .panic msg
      | .diverge => .diverge
    | .panic msg => .panic msg
    | .diverge => .diverge

/-- The function `ZipLongest` of python_itertools.go over channels with their senders:
both goroutines are started inside the closure, at every traversal. -/
def Live.ZipLongest {σ T : Type} (fuel : Nat) (mainCell otherCell : Ref σ (Sender T))
    (s other : Stream σ T) (fillValue : T) : Stream σ (Slice T) :=
  ⟨fun yield b w =>
    match Live.ToChannel s mainCell w with
    | .ok (mainChan, w1) =>
      match Live.ToChannel other otherCell w1 with
      | .ok (otherChan, w2) =>
        Live.ZipLongest.loop yield mainChan otherChan fillValue fuel b w2
      | .panic msg => .panic msg
      | .diverge => .diverge
    | .panic msg => .panic msg
    | .diverge => .diverge⟩

/-- The method `Uncons` of haskell.go over a channel with its sender. -/
def Live.Uncons {σ T : Type} (s : Stream σ T) (fuel : Nat) (cell : Ref σ (Sender T)) (w : σ) :
    Outcome ((T × Stream σ T) × σ) :=
  match Live.ToChannel s cell w with
  | .ok (ch, w1) =>
    match ch.recv w1 with
    | .ok (some item, w2) => .ok ((item, Live.FromChannel fuel ch), w2)
    | .ok (none, _) => .panic "Stream is empty"
    | .panic msg => .panic msg
    | .diverge => .diverge
  | .panic msg => .panic msg
  | .diverge => .diverge

/-- The method `Head` of haskell.go over a channel with its sender. -/
def Live.Head {σ T : Type} (s : Stream σ T) (fuel : Nat) (cell : Ref σ (Sender T)) (w : σ) :
    Outcome (T × σ) :=
  match Live.Uncons s fuel cell w with
  | .ok ((x, _), w1) => .ok (x, w1)
  | .panic msg => .panic msg
  | .diverge => .diverge

/-- The method `Tail` of haskell.go over a channel with its sender. -/
def Live.Tail {σ T : Type} (s : Stream σ T) (fuel : Nat) (cell : Ref σ (Sender T)) (w : σ) :
    Outcome (Stream σ T × σ) :=
  match Live.Uncons s fuel cell w with
  | .ok ((_, xs), w1) => .ok (xs, w1)
  | .panic msg => .panic msg
  | .diverge => .diverge

theorem FromSlice_Yields {σ T : Type} (xs : Slice T) :
    (FromSlice xs : Stream σ T).Yields xs := by
  intro β yield b w
  rfl

theorem forSlice_collect {σ T : Type} (xs acc : Slice T) (w : σ) :
    forSlice (fun item list w1 => Outcome.ok ((true, list ++ [item]), w1)) xs acc w
      = Outcome.ok (acc ++ xs, w) := by
  induction xs generalizing acc with
  | nil => simp [forSlice]
  | cons x rest ih => simp [forSlice, ih]

theorem Yields_List {σ T : Type} {s : Stream σ T} {xs : Slice T} (h : s.Yields xs) (w : σ) :
    s.List w = .ok (xs, w) := by
  unfold Stream.List
  rw [h, forSlice_collect]
  simp

theorem forSlice_map {σ T R β : Type} (yield : Yield σ R β) (mapper : T → R) (xs : Slice T)
    (b : β) (w : σ) :
    forSlice (fun item b1 w1 => yield (mapper item) b1 w1) xs b w
      = forSlice yield (xs.map mapper) b w := by
  induction xs generalizing b w with
  | nil => rfl
  | cons x rest ih =>
    simp only [forSlice, List.map_cons]
    cases h : yield (mapper x) b w with
    | ok r =>
      obtain ⟨⟨c, b1⟩, w1⟩ := r
      cases c
      · rfl
      · exact ih b1 w1
    | panic msg => rfl
    | diverge => rfl

theorem Map_Yields {σ T R : Type} {s : Stream σ T} {xs : Slice T} (hs : s.Yields xs)
    (mapper : T → R) : (Map s mapper).Yields (xs.map mapper) := by
  intro β yield b w
  simp only [Map]
  rw [hs _ b w]
  exact forSlice_map yield mapper xs b w

/-- C1: for every slice `xs`, `FromSlice(xs).List()` returns exactly `xs` (same
elements, same order, hence same length) and leaves the state untouched. -/
theorem C1_FromSlice_List_roundtrip {σ T : Type} (xs : Slice T) (w : σ) :
    (FromSlice xs : Stream σ T).List w = .ok (xs, w) :=
  Yields_List (FromSlice_Yields xs) w

theorem forSlice_append_flag {σ T β : Type} (yield : Yield σ T β) (xs zs : Slice T) (b : β) (w : σ) :
    (match forSlice (yieldOrReturn yield) xs (b, false) w with
      | .ok ((b1, true), w1) => Outcome.ok (b1, w1)
      | .ok ((b1, false), w1) => forSlice yield zs b1 w1
      | .panic msg => .panic msg
      | .diverge => .diverge) = forSlice yield (xs ++ zs) b w := by
  induction xs generalizing b w with
  | nil => simp [forSlice]
  | cons x rest ih =>
    cases h : yield x b w with
    | ok r =>
      obtain ⟨⟨c, b1⟩, w1⟩ := r
      cases c
      · simp [forSlice, yieldOrReturn, h]
      · simp only [forSlice, yieldOrReturn, h, List.cons_append]
        exact ih b1 w1
    | panic msg => simp [forSlice, yieldOrReturn, h]
    | diverge => simp [forSlice, yieldOrReturn, h]

theorem chainArgs_Yields {σ T β : Type} (yield : Yield σ T β) {args : Slice (Stream σ T)}
    {yss : List (Slice T)} (hargs : List.Forall₂ Stream.Yields args yss) (b : β) (w : σ) :
    Stream.chainArgs yield args b w = forSlice yield yss.flatten b w := by
  induction hargs generalizing b w with
  | nil => simp [Stream.chainArgs, forSlice]
  | cons h _ ih =>
    simp only [Stream.chainArgs, List.flatten_cons, h (yieldOrReturn yield) (b, false) w, ih]
    exact forSlice_append_flag yield _ _ b w

theorem Chain_Yields {σ T : Type} {s : Stream σ T} {args : Slice (Stream σ T)} {xs : Slice T}
    {yss : List (Slice T)} (hs : s.Yields xs) (hargs : List.Forall₂ Stream.Yields args yss) :
    (s.Chain args).Yields (xs ++ yss.flatten) := by
  intro β yield b w
  simp only [Stream.Chain, hs (yieldOrReturn yield) (b, false) w, chainArgs_Yields yield hargs]
  exact forSlice_append_flag yield _ _ b w

/-- C2: for finite streams `s` (elements `xs`) and `args` (elements `yss`, one
list per argument), `s.Chain(args...).List()` is `s.List()` followed by the lists of the
arguments in argument order. -/
theorem C2_Chain_preserves_order {σ T : Type} (s : Stream σ T) (args : Slice (Stream σ T))
    (xs : Slice T) (yss : List (Slice T)) (hs : s.Yields xs)
    (hargs : List.Forall₂ Stream.Yields args yss) (w : σ) :
    s.List w = .ok (xs, w)
      ∧ List.Forall₂ (fun arg ys => arg.List w = .ok (ys, w)) args yss
      ∧ (s.Chain args).List w = .ok (xs ++ yss.flatten, w) :=
  ⟨Yields_List hs w, hargs.imp (fun _ _ h => Yields_List h w), Yields_List (Chain_Yields hs hargs) w⟩

theorem C2_Chain_preserves_order_witness :
    ((FromSlice [1, 2] : Stream Unit Nat).Chain [FromSlice [3, 4], FromSlice [5]]).List ()
      = .ok ([1, 2, 3, 4, 5], ()) :=
  (C2_Chain_preserves_order (FromSlice [1, 2]) [FromSlice [3, 4], FromSlice [5]] [1, 2]
    [[3, 4], [5]] (FromSlice_Yields _)
    (.cons (FromSlice_Yields _) (.cons (FromSlice_Yields _) .nil)) ()).2.2

theorem forSlice_send {σ T : Type} (ch : Ref σ (Chan T)) (hch : ch.Lawful) (xs q : Slice T)
    (c : Bool) (w : σ) :
    forSlice (fun item (_ : Unit) w1 => Outcome.ok ((true, ()), Chan.send ch item w1)) xs ()
        (ch.set ⟨q, c⟩ w) = .ok ((), ch.set ⟨q ++ xs, c⟩ w) := by
  induction xs generalizing q with
  | nil => simp [forSlice]
  | cons x rest ih =>
    have hsend : Chan.send ch x (ch.set ⟨q, c⟩ w) = ch.set ⟨q ++ [x], c⟩ w := by
      simp [Chan.send, hch.get_set, hch.set_set]
    simp only [forSlice, hsend]
    rw [ih]
    simp

theorem ToChannel_Yields {σ T : Type} {s : Stream σ T} {xs : Slice T} (hs : s.Yields xs)
    (ch : Ref σ (Chan T)) (hch : ch.Lawful) (w : σ) :
    s.ToChannel ch w = .ok (ch, ch.set ⟨xs, true⟩ w) := by
  unfold Stream.ToChannel
  rw [hs, forSlice_send ch hch]
  simp [Chan.close, hch.get_set, hch.set_set]

theorem Zip_loop_collect {σ K V : Type} (leftChan : Ref σ (Chan K)) (rightChan : Ref σ (Chan V))
    (hl : leftChan.Lawful) (hr : rightChan.Lawful) (hd : leftChan.Disjoint rightChan)
    (xs : Slice K) (ys : Slice V) (fuel : Nat) (hfuel : min xs.length ys.length < fuel)
    (acc : Slice (Pair K V)) (w : σ) :
    Zip.loop (fun left right list w1 => Outcome.ok ((true, list ++ [Pair.mk left right]), w1))
        leftChan rightChan fuel acc (rightChan.set ⟨ys, true⟩ (leftChan.set ⟨xs, true⟩ w))
      = .ok (acc ++ List.zipWith Pair.mk xs ys,
          rightChan.set ⟨ys.drop (min xs.length ys.length + 1), true⟩
            (leftChan.set ⟨xs.drop (min xs.length ys.length + 1), true⟩ w)) := by
  induction xs generalizing ys fuel acc with
  | nil =>
    cases fuel with
    | zero => omega
    | succ fuel =>
      cases ys with
      | nil => simp [Zip.loop, Chan.recv, hd.get_set_left, hl.get_set, hr.get_set]
      | cons y ys =>
        simp [Zip.loop, Chan.recv, hd.get_set_left, hl.get_set, hr.get_set, hr.set_set]
  | cons x xs ih =>
    cases fuel with
    | zero => omega
    | succ fuel =>
      cases ys with
      | nil =>
        simp [Zip.loop, Chan.recv, hd.get_set_left, hl.get_set, hr.get_set, hr.set_set,
          hl.set_set, hd.set_comm]
      | cons y ys =>
        have hfuel1 : min xs.length ys.length < fuel := by
          simp only [List.length_cons] at hfuel
          omega
        simp only [Zip.loop, Chan.recv, hd.get_set_left, hl.get_set, hr.get_set, hr.set_set,
          hl.set_set, hd.set_comm]
        rw [ih ys fuel hfuel1]
        simp [Nat.succ_min_succ]

theorem Ref.fst_Lawful {α γ : Type} : (Ref.fst : Ref (α × γ) α).Lawful :=
  ⟨fun _ _ => rfl, fun _ _ _ => rfl⟩

theorem Ref.snd_Lawful {α γ : Type} : (Ref.snd : Ref (α × γ) γ).Lawful :=
  ⟨fun _ _ => rfl, fun _ _ _ => rfl⟩

theorem Ref.self_Lawful {α : Type} : (Ref.self : Ref α α).Lawful :=
  ⟨fun _ _ => rfl, fun _ _ _ => rfl⟩

theorem Ref.fst_Disjoint_snd {α γ : Type} :
    (Ref.fst : Ref (α × γ) α).Disjoint (Ref.snd : Ref (α × γ) γ) :=
  ⟨fun _ _ => rfl, fun _ _ => rfl, fun _ _ _ => rfl⟩

/-- C3: for finite streams `A` (elements `xs`) and `B` (elements `ys`), materializing
`Zip(A, B)` through `ToPairStream` and `List` returns `min(len A, len B)` pairs, and the
pair at position `i` is `(xs[i], ys[i])`. -/
theorem C3_Zip_shortest {σ K V : Type} (leftChan : Ref σ (Chan K)) (rightChan : Ref σ (Chan V))
    (hl : leftChan.Lawful) (hr : rightChan.Lawful) (hd : leftChan.Disjoint rightChan)
    (A : Stream σ K) (B : Stream σ V) (xs : Slice K) (ys : Slice V)
    (hA : A.Yields xs) (hB : B.Yields ys)
    (fuel : Nat) (hfuel : min xs.length ys.length < fuel) (w : σ) :
    ∃ z w1 w2 l, Zip fuel leftChan rightChan A B w = .ok (z, w1)
      ∧ (ToPairStream z).List w1 = .ok (l, w2)
      ∧ l = List.zipWith Pair.mk xs ys
      ∧ l.length = min xs.length ys.length
      ∧ ∀ (i : Nat) (a : K) (b : V), xs[i]? = some a → ys[i]? = some b →
          l[i]? = some (Pair.mk a b) := by
  refine ⟨⟨fun yield b w3 => Zip.loop yield leftChan rightChan fuel b w3⟩,
    rightChan.set ⟨ys, true⟩ (leftChan.set ⟨xs, true⟩ w),
    rightChan.set ⟨ys.drop (min xs.length ys.length + 1), true⟩
      (leftChan.set ⟨xs.drop (min xs.length ys.length + 1), true⟩ w),
    List.zipWith Pair.mk xs ys, ?_, ?_, rfl, ?_, ?_⟩
  · simp [Zip, ToChannel_Yields hA leftChan hl, ToChannel_Yields hB rightChan hr]
  · have h := Zip_loop_collect leftChan rightChan hl hr hd xs ys fuel hfuel [] w
    simp only [List.nil_append] at h
    exact h
  · simp
  · intro i a b ha hb
    simp [List.getElem?_zipWith, ha, hb]

theorem C3_Zip_shortest_witness :
    ∃ z w1 w2, Zip 3 Ref.fst Ref.snd (FromSlice [1, 2, 3]) (FromSlice ['a', 'b'])
        ((⟨[], false⟩, ⟨[], false⟩) : Chan Nat × Chan Char) = .ok (z, w1)
      ∧ (ToPairStream z).List w1 = .ok ([⟨1, 'a'⟩, ⟨2, 'b'⟩], w2) := by
  obtain ⟨z, w1, w2, l, h1, h2, h3, _⟩ :=
    C3_Zip_shortest Ref.fst Ref.snd Ref.fst_Lawful Ref.snd_Lawful Ref.fst_Disjoint_snd
      (FromSlice [1, 2, 3]) (FromSlice ['a', 'b']) [1, 2, 3] ['a', 'b']
      (FromSlice_Yields _) (FromSlice_Yields _) 3 (by decide)
      ((⟨[], false⟩, ⟨[], false⟩) : Chan Nat × Chan Char)
  subst h3
  exact ⟨z, w1, w2, h1, h2⟩

theorem zipLongestSpec_length {T : Type} (fill : T) (xs ys : Slice T) :
    (zipLongestSpec fill xs ys).length = max xs.length ys.length := by
  induction xs generalizing ys with
  | nil =>
    induction ys with
    | nil => simp [zipLongestSpec]
    | cons y ys ih => simp [zipLongestSpec, ih]
  | cons x xs ih =>
    cases ys with
    | nil => simp [zipLongestSpec, ih]
    | cons y ys => simp [zipLongestSpec, ih, Nat.succ_max_succ]

theorem zipLongestSpec_getElem? {T : Type} (fill : T) (xs ys : Slice T) (i : Nat)
    (hi : i < max xs.length ys.length) :
    (zipLongestSpec fill xs ys)[i]? = some [xs.getD i fill, ys.getD i fill] := by
  induction xs generalizing ys i with
  | nil =>
    induction ys generalizing i with
    | nil => simp at hi
    | cons y ys ih =>
      cases i with
      | zero => simp [zipLongestSpec]
      | succ i =>
        have h := ih i (by simpa using hi)
        simpa [zipLongestSpec] using h
  | cons x xs ih =>
    cases ys with
    | nil =>
      cases i with
      | zero => simp [zipLongestSpec]
      | succ i =>
        have h := ih [] i (by simpa using hi)
        simpa [zipLongestSpec] using h
    | cons y ys =>
      cases i with
      | zero => simp [zipLongestSpec]
      | succ i =>
        have h := ih ys i (by
          simp only [List.length_cons, Nat.succ_max_succ] at hi
          omega)
        simpa [zipLongestSpec] using h

theorem ZipLongest_loop_collect {σ T : Type} (mainChan otherChan : Ref σ (Chan T))
    (hm : mainChan.Lawful) (ho : otherChan.Lawful) (hd : mainChan.Disjoint otherChan)
    (fillValue : T) (xs ys : Slice T) (fuel : Nat) (hfuel : max xs.length ys.length < fuel)
    (acc : Slice (Slice T)) (w : σ) :
    ZipLongest.loop (fun item list w1 => Outcome.ok ((true, list ++ [item]), w1))
        mainChan otherChan fillValue fuel acc
        (otherChan.set ⟨ys, true⟩ (mainChan.set ⟨xs, true⟩ w))
      = .ok (acc ++ zipLongestSpec fillValue xs ys,
          otherChan.set ⟨[], true⟩ (mainChan.set ⟨[], true⟩ w)) := by
  induction xs generalizing ys fuel acc with
  | nil =>
    induction ys generalizing fuel acc with
    | nil =>
      cases fuel with
      | zero => omega
      | succ fuel =>
        simp [ZipLongest.loop, Chan.recv, hd.get_set_left, hm.get_set, ho.get_set,
          zipLongestSpec]
    | cons y ys ih =>
      cases fuel with
      | zero => omega
      | succ fuel =>
        have hfuel1 : max ([] : Slice T).length ys.length < fuel := by
          simp only [List.length_cons, List.length_nil] at hfuel ⊢
          omega
        simp only [ZipLongest.loop, Chan.recv, hd.get_set_left, hm.get_set, ho.get_set,
          ho.set_set, zipLongestSpec, Option.isNone_none, Option.isNone_some,
          Bool.and_false, Bool.false_and, Bool.and_true, Bool.true_and,
          Bool.false_eq_true, ↓reduceIte, Option.getD_none, Option.getD_some]
        rw [ih fuel hfuel1]
        simp
  | cons x xs ih =>
    cases fuel with
    | zero => omega
    | succ fuel =>
      cases ys with
      | nil =>
        have hfuel1 : max xs.length ([] : Slice T).length < fuel := by
          simp only [List.length_cons, List.length_nil] at hfuel ⊢
          omega
        simp only [ZipLongest.loop, Chan.recv, hd.get_set_left, hm.get_set, ho.get_set,
          ho.set_set, hm.set_set, hd.set_comm, zipLongestSpec, Option.isNone_none, Option.isNone_some,
          Bool.and_false, Bool.false_and, Bool.and_true, Bool.true_and,
          Bool.false_eq_true, ↓reduceIte, Option.getD_none, Option.getD_some]
        rw [ih [] fuel hfuel1]
        simp
      | cons y ys =>
        have hfuel1 : max xs.length ys.length < fuel := by
          simp only [List.length_cons, Nat.succ_max_succ] at hfuel
          omega
        simp only [ZipLongest.loop, Chan.recv, hd.get_set_left, hm.get_set, ho.get_set,
          ho.set_set, hm.set_set, hd.set_comm, zipLongestSpec, Option.isNone_none, Option.isNone_some,
          Bool.and_false, Bool.false_and, Bool.and_true, Bool.true_and,
          Bool.false_eq_true, ↓reduceIte, Option.getD_none, Option.getD_some]
        rw [ih ys fuel hfuel1]
        simp

/-- C4: for finite streams `A` (elements `xs`) and `B` (elements `ys`) and a fill
value `X`, `ZipLongest(A, B, X).List()` has `max(len A, len B)` entries, and entry `i` is
the two-element slice `[xs[i] or X, ys[i] or X]`. -/
theorem C4_ZipLongest_pads {σ T : Type} (mainChan otherChan : Ref σ (Chan T))
    (hm : mainChan.Lawful) (ho : otherChan.Lawful) (hd : mainChan.Disjoint otherChan)
    (A B : Stream σ T) (xs ys : Slice T) (hA : A.Yields xs) (hB : B.Yields ys) (X : T)
    (fuel : Nat) (hfuel : max xs.length ys.length < fuel) (w : σ) :
    ∃ l w1, (ZipLongest fuel mainChan otherChan A B X).List w = .ok (l, w1)
      ∧ l.length = max xs.length ys.length
      ∧ ∀ i, i < max xs.length ys.length →
          l[i]? = some [if i < xs.length then xs.getD i X else X,
                        if i < ys.length then ys.getD i X else X] := by
  refine ⟨zipLongestSpec X xs ys, otherChan.set ⟨[], true⟩ (mainChan.set ⟨[], true⟩ w),
    ?_, zipLongestSpec_length X xs ys, ?_⟩
  · have h := ZipLongest_loop_collect mainChan otherChan hm ho hd X xs ys fuel hfuel [] w
    simp only [List.nil_append] at h
    simp only [Stream.List, ZipLongest, ToChannel_Yields hA mainChan hm,
      ToChannel_Yields hB otherChan ho]
    exact h
  · intro i hi
    rw [zipLongestSpec_getElem? X xs ys i hi]
    have h1 : (if i < xs.length then xs.getD i X else X) = xs.getD i X := by
      split
      · rfl
      · simp [List.getD_eq_getElem?_getD, List.getElem?_eq_none (Nat.le_of_not_lt ‹_›)]
    have h2 : (if i < ys.length then ys.getD i X else X) = ys.getD i X := by
      split
      · rfl
      · simp [List.getD_eq_getElem?_getD, List.getElem?_eq_none (Nat.le_of_not_lt ‹_›)]
    rw [h1, h2]

theorem C4_ZipLongest_pads_witness :
    ∃ w1, (ZipLongest 4 Ref.fst Ref.snd (FromSlice [1, 2, 3]) (FromSlice [7, 8]) 99).List
        ((⟨[], false⟩, ⟨[], false⟩) : Chan Nat × Chan Nat)
      = .ok ([[1, 7], [2, 8], [3, 99]], w1) := by
  obtain ⟨l, w1, h1, h2, h3⟩ :=
    C4_ZipLongest_pads Ref.fst Ref.snd Ref.fst_Lawful Ref.snd_Lawful Ref.fst_Disjoint_snd
      (FromSlice [1, 2, 3]) (FromSlice [7, 8]) [1, 2, 3] [7, 8]
      (FromSlice_Yields _) (FromSlice_Yields _) 99 4 (by decide)
      ((⟨[], false⟩, ⟨[], false⟩) : Chan Nat × Chan Nat)
  refine ⟨w1, ?_⟩
  have e : l = [[1, 7], [2, 8], [3, 99]] := by
    apply List.ext_getElem?
    intro i
    by_cases hi : i < 3
    · have := h3 i (by simpa using hi)
      interval_cases i <;> simpa using this
    · have hl : l.length = 3 := by simpa using h2
      rw [List.getElem?_eq_none (by omega), List.getElem?_eq_none (by simp; omega)]
  rw [← e]
  exact h1

theorem FromChannel_loop_collect {σ T : Type} (ch : Ref σ (Chan T)) (hch : ch.Lawful)
    (xs : Slice T) (fuel : Nat) (hfuel : xs.length < fuel) (acc : Slice T) (w : σ) :
    FromChannel.loop (fun item list w1 => Outcome.ok ((true, list ++ [item]), w1)) ch fuel acc
        (ch.set ⟨xs, true⟩ w) = .ok (acc ++ xs, ch.set ⟨[], true⟩ w) := by
  induction xs generalizing fuel acc with
  | nil =>
    cases fuel with
    | zero => omega
    | succ fuel => simp [FromChannel.loop, Chan.recv, hch.get_set]
  | cons x xs ih =>
    cases fuel with
    | zero => omega
    | succ fuel =>
      have hfuel1 : xs.length < fuel := by
        simp only [List.length_cons] at hfuel
        omega
      simp only [FromChannel.loop, Chan.recv, hch.get_set, hch.set_set]
      rw [ih fuel hfuel1]
      simp

/-- C5: for a finite stream with elements `x0, x1, ..., xn`, `Uncons` returns `x0`
and a stream whose `List()` is `[x1, ..., xn]` (so `Head` returns `x0` and `Tail` returns
that stream); for an empty stream `Uncons`, `Head` and `Tail` panic with
"Stream is empty". -/
theorem C5_Uncons_decomposition {σ T : Type} (ch : Ref σ (Chan T)) (hch : ch.Lawful)
    (s : Stream σ T) (xs : Slice T) (hs : s.Yields xs) (fuel : Nat) (hfuel : xs.length ≤ fuel)
    (w : σ) :
    (xs = [] →
        s.Uncons fuel ch w = .panic "Stream is empty"
        ∧ s.Head fuel ch w = .panic "Stream is empty"
        ∧ s.Tail fuel ch w = .panic "Stream is empty")
    ∧ (∀ (x0 : T) (rest : Slice T), xs = x0 :: rest →
        ∃ r w1 w2, s.Uncons fuel ch w = .ok ((x0, r), w1)
          ∧ r.List w1 = .ok (rest, w2)
          ∧ s.Head fuel ch w = .ok (x0, w1)
          ∧ s.Tail fuel ch w = .ok (r, w1)) := by
  constructor
  · intro hxs
    subst hxs
    simp [Stream.Head, Stream.Tail, Stream.Uncons, ToChannel_Yields hs ch hch, Chan.recv,
      hch.get_set]
  · intro x0 rest hxs
    subst hxs
    have hu : s.Uncons fuel ch w = .ok ((x0, FromChannel fuel ch), ch.set ⟨rest, true⟩ w) := by
      simp [Stream.Uncons, ToChannel_Yields hs ch hch, Chan.recv, hch.get_set, hch.set_set]
    refine ⟨FromChannel fuel ch, ch.set ⟨rest, true⟩ w, ch.set ⟨[], true⟩ w, hu, ?_, ?_, ?_⟩
    · have h := FromChannel_loop_collect ch hch rest fuel (by simpa using hfuel) [] w
      simp only [List.nil_append] at h
      exact h
    · simp [Stream.Head, hu]
    · simp [Stream.Tail, hu]

theorem C5_Uncons_decomposition_witness :
    (FromSlice ([] : Slice Nat)).Uncons 3 Ref.self (⟨[], false⟩ : Chan Nat)
        = .panic "Stream is empty"
    ∧ ∃ r w1 w2, (FromSlice [1, 2, 3]).Uncons 3 Ref.self (⟨[], false⟩ : Chan Nat)
          = .ok ((1, r), w1)
        ∧ r.List w1 = .ok ([2, 3], w2) := by
  constructor
  · exact ((C5_Uncons_decomposition Ref.self Ref.self_Lawful (FromSlice []) []
      (FromSlice_Yields _) 3 (by decide) ⟨[], false⟩).1 rfl).1
  · obtain ⟨r, w1, w2, h1, h2, _⟩ :=
      (C5_Uncons_decomposition Ref.self Ref.self_Lawful (FromSlice [1, 2, 3]) [1, 2, 3]
        (FromSlice_Yields _) 3 (by decide) ⟨[], false⟩).2 1 [2, 3] rfl
    exact ⟨r, w1, w2, h1, h2⟩

/-- C6: for a non-empty finite stream `s`, `Unsnoc` returns `(init, last)` with
`init.List()` followed by `last` equal to `s.List()`, `Init` returns `init` and `Last`
returns `last`; for an empty stream `Unsnoc`, `Init` and `Last` panic with
"Stream is empty". -/
theorem C6_Unsnoc_decomposition {σ T : Type} (s : Stream σ T) (xs : Slice T)
    (hs : s.Yields xs) (w : σ) :
    (xs = [] →
        s.Unsnoc w = .panic "Stream is empty"
        ∧ s.Init w = .panic "Stream is empty"
        ∧ s.Last w = .panic "Stream is empty")
    ∧ (xs ≠ [] →
        ∃ init last ini, s.Unsnoc w = .ok ((init, last), w)
          ∧ s.List w = .ok (xs, w)
          ∧ init.List w = .ok (ini, w)
          ∧ ini ++ [last] = xs
          ∧ s.Init w = .ok (init, w)
          ∧ s.Last w = .ok (last, w)) := by
  constructor
  · intro hxs
    subst hxs
    simp [Stream.Init, Stream.Last, Stream.Unsnoc, Yields_List hs]
  · intro hxs
    have hlen : ¬ xs.length = 0 := fun h => hxs (List.length_eq_zero.mp h)
    have hlt : xs.length - 1 < xs.length := by omega
    have hu : s.Unsnoc w
        = .ok ((FromSlice (xs.take (xs.length - 1)), xs.get ⟨xs.length - 1, hlt⟩), w) := by
      simp [Stream.Unsnoc, Yields_List hs, hlen]
    refine ⟨_, _, xs.take (xs.length - 1), hu, Yields_List hs w,
      Yields_List (FromSlice_Yields _) w, ?_, ?_, ?_⟩
    · have h := List.take_concat_get xs (xs.length - 1) hlt
      have h1 : xs.length - 1 + 1 = xs.length := by omega
      rw [h1, List.take_length] at h
      simpa using h
    · simp [Stream.Init, hu]
    · simp [Stream.Last, hu]

theorem C6_Unsnoc_decomposition_witness :
    (FromSlice ([] : Slice Nat) : Stream Unit Nat).Unsnoc () = .panic "Stream is empty"
    ∧ ∃ init ini, (FromSlice [1, 2, 3] : Stream Unit Nat).Unsnoc () = .ok ((init, 3), ())
        ∧ init.List () = .ok (ini, ()) ∧ ini ++ [3] = [1, 2, 3] := by
  constructor
  · exact ((C6_Unsnoc_decomposition (FromSlice []) [] (FromSlice_Yields _) ()).1 rfl).1
  · obtain ⟨init, last, ini, h1, _, h3, h4, _, h6⟩ :=
      (C6_Unsnoc_decomposition (FromSlice [1, 2, 3] : Stream Unit Nat) [1, 2, 3]
        (FromSlice_Yields _) ()).2 (by decide)
    have hl : last = 3 := by
      have h := h6
      simp [Stream.Last, Stream.Unsnoc, Stream.List, FromSlice, forSlice] at h
      exact h.symm
    subst hl
    exact ⟨init, ini, h1, h3, h4⟩

theorem wrapInt_of_inRange (x : Int) (h : -2 ^ 63 ≤ x ∧ x < 2 ^ 63) : wrapInt x = x := by
  unfold wrapInt
  omega

theorem forSlice_takeBody {σ T β : Type} (yield : Yield σ T β) (n : Int) (xs : Slice T) (i : Int)
    (b : β) (w : σ) :
    (match forSlice (fun item (st : Int × β) w1 =>
          if st.1 ≥ n then Outcome.ok ((false, st), w1)
          else
            match yield item st.2 w1 with
            | .ok ((true, b1), w2) => Outcome.ok ((true, (st.1 + 1, b1)), w2)
            | .ok ((false, b1), w2) => .ok ((false, (st.1, b1)), w2)
            | .panic msg => .panic msg
            | .diverge => .diverge) xs (i, b) w with
      | .ok (st, w1) => Outcome.ok (st.2, w1)
      | .panic msg => .panic msg
      | .diverge => .diverge) = forSlice yield (xs.take (n - i).toNat) b w := by
  induction xs generalizing i b w with
  | nil => simp [forSlice]
  | cons x rest ih =>
    by_cases hge : i ≥ n
    · have h0 : (n - i).toNat = 0 := by omega
      simp [forSlice, hge, h0]
    · have h1 : (n - i).toNat = (n - (i + 1)).toNat + 1 := by omega
      rw [h1, List.take_succ_cons]
      cases h : yield x b w with
      | ok r =>
        obtain ⟨⟨c, b1⟩, w1⟩ := r
        cases c
        · simp [forSlice, hge, h]
        · simp only [forSlice, hge, h, ↓reduceIte]
          exact ih (i + 1) b1 w1
      | panic msg => simp [forSlice, hge, h]
      | diverge => simp [forSlice, hge, h]

theorem forSlice_dropBody {σ T β : Type} (yield : Yield σ T β) (n : Int) (xs : Slice T) (i : Int)
    (b : β) (w : σ) :
    (match forSlice (fun item (st : Int × β) w1 =>
          if st.1 < n then Outcome.ok ((true, (st.1 + 1, st.2)), w1)
          else
            match yield item st.2 w1 with
            | .ok ((c, b1), w2) => Outcome.ok ((c, (st.1, b1)), w2)
            | .panic msg => .panic msg
            | .diverge => .diverge) xs (i, b) w with
      | .ok (st, w1) => Outcome.ok (st.2, w1)
      | .panic msg => .panic msg
      | .diverge => .diverge) = forSlice yield (xs.drop (n - i).toNat) b w := by
  induction xs generalizing i b w with
  | nil => simp [forSlice]
  | cons x rest ih =>
    by_cases hlt : i < n
    · have h1 : (n - i).toNat = (n - (i + 1)).toNat + 1 := by omega
      rw [h1, List.drop_succ_cons]
      simp only [forSlice, hlt, ↓reduceIte]
      exact ih (i + 1) b w
    · have h0 : (n - i).toNat = 0 := by omega
      have hrest := ih i
      simp only [h0, List.drop_zero] at hrest ⊢
      cases h : yield x b w with
      | ok r =>
        obtain ⟨⟨c, b1⟩, w1⟩ := r
        cases c
        · simp [forSlice, hlt, h]
        · simp only [forSlice, hlt, h, ↓reduceIte]
          exact hrest b1 w1
      | panic msg => simp [forSlice, hlt, h]
      | diverge => simp [forSlice, hlt, h]

theorem Take_Yields {σ T : Type} {s : Stream σ T} {xs : Slice T} (hs : s.Yields xs) (n : Int) :
    (s.Take n).Yields (xs.take n.toNat) := by
  intro β yield b w
  have h := forSlice_takeBody yield n xs 0 b w
  simp only [sub_zero] at h
  simp only [Stream.Take]
  rw [hs _ (0, b) w]
  exact h

theorem Drop_Yields {σ T : Type} {s : Stream σ T} {xs : Slice T} (hs : s.Yields xs) (n : Int) :
    (s.Drop n).Yields (xs.drop n.toNat) := by
  intro β yield b w
  have h := forSlice_dropBody yield n xs 0 b w
  simp only [sub_zero] at h
  simp only [Stream.Drop]
  rw [hs _ (0, b) w]
  exact h

/-- C8: for a finite stream `s` with elements `xs` and every integer `n`,
`s.Take(n).List()` is the first `min(max(n,0), len s)` elements of `xs` and
`s.Drop(n).List()` is `xs` without them; for `n <= 0` the first is empty and the second
is `xs`; the two lists concatenated give back `xs`, and so does the stream
`s.Take(n)` chained with `s.Drop(n)`. -/
theorem C8_Take_Drop {σ T : Type} (s : Stream σ T) (xs : Slice T) (hs : s.Yields xs) (n : Int)
    (w : σ) :
    (s.Take n).List w = .ok (xs.take (min (max n 0).toNat xs.length), w)
    ∧ (s.Drop n).List w = .ok (xs.drop (min (max n 0).toNat xs.length), w)
    ∧ (n ≤ 0 → (s.Take n).List w = .ok ([], w) ∧ (s.Drop n).List w = .ok (xs, w))
    ∧ xs.take (min (max n 0).toNat xs.length) ++ xs.drop (min (max n 0).toNat xs.length)
        = xs
    ∧ ((s.Take n).Chain [s.Drop n]).List w = .ok (xs, w) := by
  have hm : (max n 0).toNat = n.toNat := by omega
  have ht : xs.take (min (max n 0).toNat xs.length) = xs.take n.toNat := by
    rw [hm, List.take_eq_take]
    simp
  have hdr : xs.drop (min (max n 0).toNat xs.length) = xs.drop n.toNat := by
    rw [hm]
    by_cases h : n.toNat ≤ xs.length
    · rw [Nat.min_eq_left h]
    · rw [Nat.min_eq_right (by omega), List.drop_length,
        List.drop_eq_nil_of_le (by omega)]
  rw [ht, hdr]
  refine ⟨Yields_List (Take_Yields hs n) w, Yields_List (Drop_Yields hs n) w, ?_,
    List.take_append_drop _ _, ?_⟩
  · intro hn
    have h0 : n.toNat = 0 := by omega
    have h1 := Yields_List (Take_Yields hs n) w
    have h2 := Yields_List (Drop_Yields hs n) w
    rw [h0] at h1 h2
    exact ⟨by simpa using h1, by simpa using h2⟩
  · have h := Yields_List
      (Chain_Yields (Take_Yields hs n) (.cons (Drop_Yields hs n) .nil)) w
    simpa using h

theorem C8_Take_Drop_witness :
    ((FromSlice [1, 2, 3, 4] : Stream Unit Nat).Take 3).List () = .ok ([1, 2, 3], ())
    ∧ ((FromSlice [1, 2, 3, 4] : Stream Unit Nat).Drop 3).List () = .ok ([4], ()) := by
  have h := C8_Take_Drop (FromSlice [1, 2, 3, 4] : Stream Unit Nat) [1, 2, 3, 4]
    (FromSlice_Yields _) 3 ()
  exact ⟨by simpa using h.1, by simpa using h.2.1⟩

theorem forSlice_peek_collect {σ T : Type} (a : T → σ → σ) (xs acc : Slice T) (w : σ) :
    forSlice (fun item list w1 => Outcome.ok ((true, list ++ [item]), a item w1)) xs acc w
      = Outcome.ok (acc ++ xs, xs.foldl (fun w1 x => a x w1) w) := by
  induction xs generalizing acc w with
  | nil => simp [forSlice]
  | cons x rest ih => simp [forSlice, ih]

theorem Peek_List {σ T : Type} {s : Stream σ T} {xs : Slice T} (hs : s.Yields xs)
    (a : T → σ → σ) (w : σ) :
    (s.Peek a).List w = .ok (xs, xs.foldl (fun w1 x => a x w1) w) := by
  simp only [Stream.List, Stream.Peek]
  rw [hs _ [] w, forSlice_peek_collect]
  simp

theorem Reversed_loop_eq {σ T β : Type} (yield : Yield σ T β) (list : Slice T) (k : Nat)
    (hk : k ≤ list.length) (b : β) (w : σ) :
    Stream.Reversed.loop yield list k b w = forSlice yield (list.take k).reverse b w := by
  induction k generalizing b w with
  | zero => simp [Stream.Reversed.loop, forSlice]
  | succ k ih =>
    have hlt : k < list.length := hk
    have hrev : (list.take (k + 1)).reverse = list[k] :: (list.take k).reverse := by
      rw [List.take_succ, List.getElem?_eq_getElem hlt]
      simp
    rw [hrev]
    simp only [Stream.Reversed.loop, List.getElem?_eq_getElem hlt, forSlice]
    cases h : yield list[k] b w with
    | ok r =>
      obtain ⟨⟨c, b1⟩, w1⟩ := r
      cases c
      · rfl
      · exact ih (Nat.le_of_lt hlt) b1 w1
    | panic msg => rfl
    | diverge => rfl

/-- C9 (counterexample): with an action that records its calls and an empty log,
evaluating `FromSlice([1,2,3]).Peek(a).Reversed()` leaves the log `[1,2,3]` before anything
drives the returned stream: `a` has been invoked three times, not zero times. -/
theorem C9_Reversed_consumes_at_construction :
    Outcome.state (((FromSlice [1, 2, 3] : Stream (Slice Nat) Nat).Peek recordCall).Reversed [])
        = some [1, 2, 3]
    ∧ Outcome.state (((FromSlice [1, 2, 3] : Stream (Slice Nat) Nat).Peek recordCall).Reversed [])
        ≠ some [] := by
  constructor
  · rfl
  · decide

/-- C9 (amended): driving `s.Peek(a)` is what invokes `a`; the buffering operators
`Reversed`, `Sorted`, `SortedStable` and `Sort` call `s.List()` when they are called, so
for a finite stream `s` with elements `xs`, evaluating `s.Peek(a).Reversed()` (or `.Sorted`,
`.SortedStable`, `Sort`) invokes `a` once on every element of `xs`, in source order, and
returns a stream that holds the buffered elements and invokes `a` no more when driven. -/
theorem C9_buffering_operators_drain_when_called {σ T : Type} (s : Stream σ T) (xs : Slice T)
    (hs : s.Yields xs) (a : T → σ → σ)
    (sortFunc sortStableFunc : Slice T → (T → T → Int) → Slice T)
    (slicesSort : Slice T → Slice T) (cmp : T → T → Int) (w : σ) :
    (s.Peek a).List w = .ok (xs, xs.foldl (fun w1 x => a x w1) w)
    ∧ (∃ r, (s.Peek a).Reversed w = .ok (r, xs.foldl (fun w1 x => a x w1) w)
        ∧ r.Yields xs.reverse)
    ∧ (∃ r, (s.Peek a).Sorted sortFunc cmp w = .ok (r, xs.foldl (fun w1 x => a x w1) w)
        ∧ r.Yields (sortFunc xs cmp))
    ∧ (∃ r, (s.Peek a).SortedStable sortStableFunc cmp w
          = .ok (r, xs.foldl (fun w1 x => a x w1) w)
        ∧ r.Yields (sortStableFunc xs cmp))
    ∧ (∃ r, SortStream slicesSort (s.Peek a) w = .ok (r, xs.foldl (fun w1 x => a x w1) w)
        ∧ r.Yields (slicesSort xs)) := by
  refine ⟨Peek_List hs a w,
    ⟨⟨fun yield b w2 => Stream.Reversed.loop yield xs xs.length b w2⟩, ?_, ?_⟩,
    ⟨⟨fun yield b w2 => forSlice yield (sortFunc xs cmp) b w2⟩, ?_, ?_⟩,
    ⟨⟨fun yield b w2 => forSlice yield (sortStableFunc xs cmp) b w2⟩, ?_, ?_⟩,
    ⟨FromSlice (slicesSort xs), ?_, ?_⟩⟩
  · simp only [Stream.Reversed, Peek_List hs a w]
  · intro β yield b w2
    have h := Reversed_loop_eq yield xs xs.length (Nat.le_refl _) b w2
    rw [List.take_length] at h
    exact h
  · simp only [Stream.Sorted, Peek_List hs a w]
  · intro β yield b w2
    rfl
  · simp only [Stream.SortedStable, Peek_List hs a w]
  · intro β yield b w2
    rfl
  · simp only [SortStream, Peek_List hs a w]
  · exact FromSlice_Yields _

theorem C9_buffering_operators_drain_when_called_witness :
    ∃ r, ((FromSlice [1, 2, 3] : Stream (Slice Nat) Nat).Peek recordCall).Reversed []
        = .ok (r, [1, 2, 3])
      ∧ r.Yields [3, 2, 1] := by
  obtain ⟨r, h1, h2⟩ := (C9_buffering_operators_drain_when_called
    (FromSlice [1, 2, 3] : Stream (Slice Nat) Nat) [1, 2, 3] (FromSlice_Yields _) recordCall
    (fun l _ => l) (fun l _ => l) id (fun _ _ => 0) []).2.1
  exact ⟨r, h1, h2⟩

/-- C10 (the code at the failing input): for `e = FromSlice([10, 20]).Enumerate()`, the
first `ToPairStream(e).List()` returns `[(0,10), (1,20)]` and the second one returns
`[(2,10), (3,20)]`: the counter `i` is declared outside the closure and is not reset. -/
theorem C10_Enumerate_second_traversal :
    ∃ e w0 w1 w2, (FromSlice [10, 20] : Stream Int Nat).Enumerate Ref.self 0 = .ok (e, w0)
      ∧ (ToPairStream e).List w0 = .ok ([⟨0, 10⟩, ⟨1, 20⟩], w1)
      ∧ (ToPairStream e).List w1 = .ok ([⟨2, 10⟩, ⟨3, 20⟩], w2) :=
  ⟨_, _, _, _, rfl, rfl, rfl⟩

theorem forSlice_batched {σ T β : Type} (yield : Yield σ (Slice T) β) (n : Int) (xs batch : Slice T)
    (b : β) (w : σ) :
    (match forSlice (fun item (st : Slice T × β × Bool) w1 =>
          if ((st.1 ++ [item]).length : Int) = n then
            match yield (st.1 ++ [item]) st.2.1 w1 with
            | .ok ((true, b1), w2) => Outcome.ok ((true, ([], b1, false)), w2)
            | .ok ((false, b1), w2) => .ok ((false, (st.1 ++ [item], b1, true)), w2)
            | .panic msg => .panic msg
            | .diverge => .diverge
          else .ok ((true, (st.1 ++ [item], st.2.1, false)), w1)) xs (batch, b, false) w with
      | .ok ((batch1, b1, returned), w1) =>
        if returned then Outcome.ok (b1, w1)
        else if batch1.length > 0 then
          match yield batch1 b1 w1 with
          | .ok ((_, b2), w2) => .ok (b2, w2)
          | .panic msg => .panic msg
          | .diverge => .diverge
        else .ok (b1, w1)
      | .panic msg => .panic msg
      | .diverge => .diverge) = forSlice yield (batchedWindows n batch xs) b w := by
  induction xs generalizing batch b w with
  | nil =>
    by_cases hb : batch.length > 0
    · simp only [forSlice, batchedWindows, hb, ↓reduceIte, Bool.false_eq_true]
      cases h : yield batch b w with
      | ok r =>
        obtain ⟨⟨c, b1⟩, w1⟩ := r
        cases c <;> rfl
      | panic msg => rfl
      | diverge => rfl
    · simp [forSlice, batchedWindows, hb]
  | cons x rest ih =>
    by_cases hn : ((batch ++ [x]).length : Int) = n
    · simp only [forSlice, batchedWindows, hn, ↓reduceIte]
      cases h : yield (batch ++ [x]) b w with
      | ok r =>
        obtain ⟨⟨c, b1⟩, w1⟩ := r
        cases c
        · simp
        · exact ih [] b1 w1
      | panic msg => rfl
      | diverge => rfl
    · simp only [forSlice, batchedWindows, hn, ↓reduceIte]
      exact ih (batch ++ [x]) b w

theorem Batched_Yields {σ T : Type} {s : Stream σ T} {xs : Slice T} (hs : s.Yields xs) (n : Int) :
    (Batched s n).Yields (batchedWindows n [] xs) := by
  intro β yield b w
  simp only [Batched]
  rw [hs _ ([], b, false) w]
  exact forSlice_batched yield n xs [] b w

theorem batchedWindows_flatten {T : Type} (n : Int) (xs batch : Slice T) :
    (batchedWindows n batch xs).flatten = batch ++ xs := by
  induction xs generalizing batch with
  | nil =>
    cases batch <;> simp [batchedWindows]
  | cons x rest ih =>
    by_cases hn : ((batch ++ [x]).length : Int) = n
    · rw [batchedWindows, if_pos hn]
      simp [ih]
    · rw [batchedWindows, if_neg hn]
      simp [ih]

theorem batchedWindows_length_le {T : Type} (n : Int) (xs batch : Slice T)
    (hb : (batch.length : Int) < n) :
    ∀ c ∈ batchedWindows n batch xs, 1 ≤ c.length ∧ (c.length : Int) ≤ n := by
  induction xs generalizing batch with
  | nil =>
    intro c hc
    by_cases hpos : batch.length > 0
    · simp only [batchedWindows, hpos, ↓reduceIte, List.mem_singleton] at hc
      subst hc
      exact ⟨hpos, by omega⟩
    · simp [batchedWindows, hpos] at hc
  | cons x rest ih =>
    intro c hc
    by_cases hn : ((batch ++ [x]).length : Int) = n
    · simp only [batchedWindows, hn, ↓reduceIte, List.mem_cons] at hc
      rcases hc with hc | hc
      · subst hc
        refine ⟨by simp, by omega⟩
      · exact ih [] (by simp only [List.length_nil, Nat.cast_zero]; simp at hn; omega) c hc
    · simp only [batchedWindows, hn, ↓reduceIte] at hc
      refine ih (batch ++ [x]) ?_ c hc
      simp only [List.length_append, List.length_singleton, Nat.cast_add, Nat.cast_one] at hn ⊢
      omega

theorem batchedWindows_dropLast {T : Type} (n : Int) (xs batch : Slice T) :
    ∀ c ∈ (batchedWindows n batch xs).dropLast, (c.length : Int) = n := by
  induction xs generalizing batch with
  | nil =>
    intro c hc
    by_cases hpos : batch.length > 0
    · simp [batchedWindows, hpos] at hc
    · simp [batchedWindows, hpos] at hc
  | cons x rest ih =>
    intro c hc
    by_cases hn : ((batch ++ [x]).length : Int) = n
    · simp only [batchedWindows, hn, ↓reduceIte] at hc
      by_cases hr : batchedWindows n [] rest = []
      · simp [hr] at hc
      · rw [List.dropLast_cons_of_ne_nil hr, List.mem_cons] at hc
        rcases hc with hc | hc
        · subst hc
          exact hn
        · exact ih [] c hc
    · simp only [batchedWindows, hn, ↓reduceIte] at hc
      exact ih (batch ++ [x]) c hc

/-- C11: for a finite stream `s` with elements `xs` and `n >= 1`, the batches of
`Batched(s, n).List()` concatenate to `xs`, every batch but the last has `n` elements,
the last batch has between `1` and `n` elements, and an empty source gives no batch. -/
theorem C11_Batched_windows {σ T : Type} (s : Stream σ T) (xs : Slice T) (hs : s.Yields xs)
    (n : Int) (hn : 1 ≤ n) (w : σ) :
    ∃ bs, (Batched s n).List w = .ok (bs, w)
      ∧ s.List w = .ok (xs, w)
      ∧ bs.flatten = xs
      ∧ (∀ c ∈ bs.dropLast, (c.length : Int) = n)
      ∧ (∀ c ∈ bs.getLast?, 1 ≤ c.length ∧ (c.length : Int) ≤ n)
      ∧ (xs = [] → bs = []) := by
  refine ⟨batchedWindows n [] xs, Yields_List (Batched_Yields hs n) w, Yields_List hs w, ?_,
    batchedWindows_dropLast n xs [], ?_, ?_⟩
  · simpa using batchedWindows_flatten n xs []
  · intro c hc
    exact batchedWindows_length_le n xs [] (by simpa using hn) c (List.mem_of_getLast?_eq_some hc)
  · intro hxs
    subst hxs
    simp [batchedWindows]

theorem C11_Batched_windows_witness :
    ∃ bs, (Batched (FromSlice [1, 2, 3, 4, 5] : Stream Unit Nat) 2).List () = .ok (bs, ())
      ∧ bs = [[1, 2], [3, 4], [5]]
      ∧ bs.flatten = [1, 2, 3, 4, 5] := by
  obtain ⟨bs, h1, _, h3, _⟩ := C11_Batched_windows (FromSlice [1, 2, 3, 4, 5] : Stream Unit Nat)
    [1, 2, 3, 4, 5] (FromSlice_Yields _) 2 (by decide) ()
  refine ⟨bs, h1, ?_, h3⟩
  have h2 : (Batched (FromSlice [1, 2, 3, 4, 5] : Stream Unit Nat) 2).List ()
      = .ok ([[1, 2], [3, 4], [5]], ()) := by decide
  rw [h1] at h2
  simpa using h2

/-- C12 (the code at failing inputs): `PairWise` over `[1, 2, 3]` returns
`[(1,2), (1,0), (3,0)]`, not the overlapping pairs `[(1,2), (2,3)]`; over the
one-element stream `[7]` it returns `[(7,0)]`, not the empty list; over `[1, 2, 3, 4]` it
returns `[(1,2), (1,0), (3,4), (3,0)]`. -/
theorem C12_PairWise_at_failing_inputs :
    (PairWise (FromSlice [1, 2, 3] : Stream Unit Int)).List ()
        = .ok ([⟨1, 2⟩, ⟨1, 0⟩, ⟨3, 0⟩], ())
    ∧ (PairWise (FromSlice [7] : Stream Unit Int)).List () = .ok ([⟨7, 0⟩], ())
    ∧ (PairWise (FromSlice [1, 2, 3, 4] : Stream Unit Int)).List ()
        = .ok ([⟨1, 2⟩, ⟨1, 0⟩, ⟨3, 4⟩, ⟨3, 0⟩], ()) := by
  refine ⟨?_, ?_, ?_⟩ <;> decide

/-- C13 (the code at a failing input): with `fn` the product, `Accumulate` over
`[2, 3, 4]` returns `[0, 0, 0]`: the running value starts at the zero value of the
element type, so the first element is `fn(0, 2) = 0`, not `2`, and the list is not
`[2, 6, 24]`. -/
theorem C13_Accumulate_at_failing_input :
    ((FromSlice [2, 3, 4] : Stream Unit Int).Accumulate (fun a b => a * b)).List ()
        = .ok ([0, 0, 0], ()) := by
  decide

/-- C14 (the code at a failing input): `ISlice(0, 0)` over `[1, 2, 3]` returns `[1]`,
and so does `ISlice(0, -5)`, while the index range `0 <= i < stop` is empty. -/
theorem C14_ISlice_at_failing_input :
    ((FromSlice [1, 2, 3] : Stream Unit Int).ISlice 0 0).List () = .ok ([1], ())
    ∧ ((FromSlice [1, 2, 3] : Stream Unit Int).ISlice 0 (-5)).List () = .ok ([1], ()) := by
  refine ⟨?_, ?_⟩ <;> decide

/-- C15 (the code at failing inputs): `GroupBy` with the identity key over
`[true, true, false]` returns `[[true, true]]`: the last run `[false]` is never handed
on; over the one-element stream `[true]` it returns no group at all. -/
theorem C15_GroupBy_at_failing_inputs :
    (GroupBy sprintfBool (FromSlice [true, true, false] : Stream Unit Bool) none).List ()
        = .ok ([[true, true]], ())
    ∧ (GroupBy sprintfBool (FromSlice [true] : Stream Unit Bool) none).List ()
        = .ok ([], ()) := by
  refine ⟨?_, ?_⟩ <;> decide

/-- C16 (the code at failing inputs): `MakeString(",")` over the strings `["", "a"]`
returns `"a"`, not `",a"`, and over `["", ""]` it returns `""`, not `","`: no separator
is written while the result built so far is empty. -/
theorem C16_MakeString_at_failing_inputs :
    (FromSlice ["", "a"] : Stream Unit String).MakeString id "," () = .ok ("a", ())
    ∧ (FromSlice ["", ""] : Stream Unit String).MakeString id "," () = .ok ("", ())
    ∧ (FromSlice ["", "a"] : Stream Unit String).Join id "," () = .ok ("a", ()) := by
  refine ⟨?_, ?_, ?_⟩ <;> decide

theorem forSlice_takeWhile {σ T β : Type} (yield : Yield σ T β) (p : T → Bool) (xs : Slice T)
    (b : β) (w : σ) :
    forSlice (fun item b1 w1 =>
        if !p item then Outcome.ok ((false, b1), w1) else yield item b1 w1) xs b w
      = forSlice yield (xs.takeWhile p) b w := by
  induction xs generalizing b w with
  | nil => rfl
  | cons x rest ih =>
    by_cases hp : p x = true
    · simp only [forSlice, List.takeWhile_cons, hp, Bool.not_true, Bool.false_eq_true,
        ↓reduceIte]
      cases h : yield x b w with
      | ok r =>
        obtain ⟨⟨c, b1⟩, w1⟩ := r
        cases c
        · rfl
        · exact ih b1 w1
      | panic msg => rfl
      | diverge => rfl
    · simp [forSlice, List.takeWhile_cons, hp]

theorem forSlice_dropWhile {σ T β : Type} (yield : Yield σ T β) (p : T → Bool) (xs : Slice T)
    (skip : Bool) (b : β) (w : σ) :
    (match forSlice (fun item (st : Bool × β) w1 =>
          if st.1 && p item then Outcome.ok ((true, st), w1)
          else
            match yield item st.2 w1 with
            | .ok ((c, b1), w2) => Outcome.ok ((c, (false, b1)), w2)
            | .panic msg => .panic msg
            | .diverge => .diverge) xs (skip, b) w with
      | .ok (st, w1) => Outcome.ok (st.2, w1)
      | .panic msg => .panic msg
      | .diverge => .diverge)
      = forSlice yield (if skip then xs.dropWhile p else xs) b w := by
  induction xs generalizing skip b w with
  | nil => cases skip <;> simp [forSlice]
  | cons x rest ih =>
    by_cases hsp : (skip && p x) = true
    · have hs : skip = true := by simp_all
      have hp : p x = true := by simp_all
      subst hs
      simp only [forSlice, hp, Bool.and_self, ↓reduceIte, List.dropWhile_cons]
      exact ih true b w
    · have hrhs : (if skip = true then (x :: rest).dropWhile p else x :: rest) = x :: rest := by
        cases skip
        · simp
        · have hp : p x = false := by simpa using hsp
          simp [List.dropWhile_cons, hp]
      rw [hrhs]
      simp only [forSlice, hsp, Bool.false_eq_true, ↓reduceIte]
      cases h : yield x b w with
      | ok r =>
        obtain ⟨⟨c, b1⟩, w1⟩ := r
        cases c
        · rfl
        · have h2 := ih false b1 w1
          simpa using h2
      | panic msg => rfl
      | diverge => rfl

theorem TakeWhile_Yields {σ T : Type} {s : Stream σ T} {xs : Slice T} (hs : s.Yields xs)
    (p : T → Bool) : (s.TakeWhile p).Yields (xs.takeWhile p) := by
  intro β yield b w
  simp only [Stream.TakeWhile]
  rw [hs _ b w]
  exact forSlice_takeWhile yield p xs b w

theorem DropWhile_Yields {σ T : Type} {s : Stream σ T} {xs : Slice T} (hs : s.Yields xs)
    (p : T → Bool) : (s.DropWhile p).Yields (xs.dropWhile p) := by
  intro β yield b w
  simp only [Stream.DropWhile]
  rw [hs _ (true, b) w]
  have h := forSlice_dropWhile yield p xs true b w
  simpa using h

/-- C17: for a finite stream `s` with elements `xs` and a predicate `p`,
`s.TakeWhile(p).List()` is the longest prefix of `xs` whose elements all satisfy `p`
(the element after it, if any, fails `p`), `s.DropWhile(p).List()` is the rest of `xs`
from that element on, and the two lists concatenated are `xs`. -/
theorem C17_TakeWhile_DropWhile_split {σ T : Type} (s : Stream σ T) (xs : Slice T)
    (hs : s.Yields xs) (p : T → Bool) (w : σ) :
    ∃ pre suf, (s.TakeWhile p).List w = .ok (pre, w)
      ∧ (s.DropWhile p).List w = .ok (suf, w)
      ∧ s.List w = .ok (xs, w)
      ∧ pre ++ suf = xs
      ∧ (∀ x ∈ pre, p x = true)
      ∧ (∀ y, suf.head? = some y → p y = false) := by
  refine ⟨xs.takeWhile p, xs.dropWhile p, Yields_List (TakeWhile_Yields hs p) w,
    Yields_List (DropWhile_Yields hs p) w, Yields_List hs w,
    List.takeWhile_append_dropWhile p xs, ?_, ?_⟩
  · intro x hx
    exact List.mem_takeWhile_imp hx
  · intro y hy
    have h := List.head?_dropWhile_not p xs
    rw [hy] at h
    exact h

theorem C17_TakeWhile_DropWhile_split_witness :
    ∃ pre suf,
      ((FromSlice [1, 2, 3, 4, 5] : Stream Unit Nat).TakeWhile (fun n => n < 4)).List ()
        = .ok (pre, ())
      ∧ ((FromSlice [1, 2, 3, 4, 5] : Stream Unit Nat).DropWhile (fun n => n < 4)).List ()
        = .ok (suf, ())
      ∧ pre = [1, 2, 3] ∧ suf = [4, 5] ∧ pre ++ suf = [1, 2, 3, 4, 5] := by
  obtain ⟨pre, suf, h1, h2, _, h4, _, _⟩ := C17_TakeWhile_DropWhile_split
    (FromSlice [1, 2, 3, 4, 5] : Stream Unit Nat) [1, 2, 3, 4, 5] (FromSlice_Yields _)
    (fun n => n < 4) ()
  have e1 : ((FromSlice [1, 2, 3, 4, 5] : Stream Unit Nat).TakeWhile (fun n => n < 4)).List ()
      = .ok ([1, 2, 3], ()) := by decide
  have e2 : ((FromSlice [1, 2, 3, 4, 5] : Stream Unit Nat).DropWhile (fun n => n < 4)).List ()
      = .ok ([4, 5], ()) := by decide
  rw [h1] at e1
  rw [h2] at e2
  exact ⟨pre, suf, h1, h2, by simpa using e1, by simpa using e2, h4⟩

theorem all_ne_key_iff {T R : Type} [DecidableEq R] (k : T → R) (pre : Slice T) (r : R) :
    pre.all (fun y => k y != r) = true ↔ r ∉ pre.map k := by
  simp only [List.all_eq_true, bne_iff_ne, ne_eq, List.mem_map, not_exists, not_and]

theorem forSlice_distinct_collect {σ T R : Type} [DecidableEq R] (seen : Ref σ (R → Bool))
    (hseen : seen.Lawful) (k : T → R) (xs pre acc : Slice T) (S : R → Bool)
    (hS : ∀ r, S r = true ↔ r ∈ pre.map k) (w : σ) :
    ∃ S1 : R → Bool, (∀ r, S1 r = true ↔ r ∈ (pre ++ xs).map k)
      ∧ forSlice (fun item (list : Slice T) w2 =>
          if !(seen.get w2 (k item)) then
            Outcome.ok ((true, list ++ [item]),
              seen.set (Function.update (seen.get w2) (k item) true) w2)
          else .ok ((true, list), w2)) xs acc (seen.set S w)
        = .ok (acc ++ keptFirst k pre xs, seen.set S1 w) := by
  induction xs generalizing pre acc S with
  | nil => exact ⟨S, by simpa using hS, by simp [forSlice, keptFirst]⟩
  | cons x rest ih =>
    by_cases hx : S (k x) = true
    · have hall : ¬ (pre.all (fun y => k y != k x) = true) := by
        rw [all_ne_key_iff]
        exact fun h => h ((hS _).mp hx)
      have hS1 : ∀ r, S r = true ↔ r ∈ (pre ++ [x]).map k := by
        intro r
        rw [hS r]
        simp only [List.map_append, List.map_cons, List.map_nil, List.mem_append,
          List.mem_singleton]
        constructor
        · exact Or.inl
        · rintro (h | h)
          · exact h
          · exact (hS r).mp (h ▸ hx)
      obtain ⟨S1, h1, h2⟩ := ih (pre ++ [x]) acc S hS1
      refine ⟨S1, by simpa using h1, ?_⟩
      simp only [forSlice, hseen.get_set, hx, Bool.not_true, Bool.false_eq_true, ↓reduceIte,
        keptFirst, hall]
      exact h2
    · have hall : pre.all (fun y => k y != k x) = true := by
        rw [all_ne_key_iff]
        exact fun h => hx ((hS _).mpr h)
      have hS1 : ∀ r, Function.update S (k x) true r = true ↔ r ∈ (pre ++ [x]).map k := by
        intro r
        simp only [List.map_append, List.map_cons, List.map_nil, List.mem_append,
          List.mem_singleton]
        by_cases hr : r = k x
        · subst hr
          simp
        · simp [Function.update_noteq hr, hS r, hr]
      obtain ⟨S1, h1, h2⟩ := ih (pre ++ [x]) (acc ++ [x]) (Function.update S (k x) true) hS1
      refine ⟨S1, by simpa using h1, ?_⟩
      have hx' : S (k x) = false := by simpa using hx
      simp only [forSlice, hseen.get_set, hseen.set_set, hx', Bool.not_false, ↓reduceIte,
        keptFirst, hall]
      rw [h2]
      simp

theorem keptFirst_eq_filter {T R : Type} [DecidableEq R] (k : T → R) (xs pre : Slice T) :
    keptFirst k pre xs
      = (xs.enum.filter (fun p => (pre ++ xs.take p.1).all (fun y => k y != k p.2))).map
          Prod.snd := by
  induction xs generalizing pre with
  | nil => simp [keptFirst]
  | cons x rest ih =>
    rw [List.enum_cons', List.filter_cons, List.filter_map, keptFirst, ih (pre ++ [x])]
    have hfun : ((fun (p : Nat × T) => (pre ++ (x :: rest).take p.1).all (fun y => k y != k p.2))
        ∘ Prod.map (· + 1) id)
        = fun (p : Nat × T) => (pre ++ [x] ++ rest.take p.1).all (fun y => k y != k p.2) := by
      funext p
      simp [Function.comp, List.take_succ_cons]
    rw [hfun]
    simp only [List.take_zero, List.append_nil, List.map_map]
    have hsnd : (Prod.snd ∘ Prod.map (· + 1) id : Nat × T → T) = Prod.snd := by
      funext p
      rfl
    split <;> simp [List.map_map, hsnd]

theorem keptFirst_not_mem_pre {T R : Type} [DecidableEq R] (k : T → R) (xs pre : Slice T) :
    ∀ x ∈ keptFirst k pre xs, k x ∉ pre.map k := by
  induction xs generalizing pre with
  | nil => simp [keptFirst]
  | cons x rest ih =>
    intro y hy
    have hrest : ∀ z ∈ keptFirst k (pre ++ [x]) rest, k z ∉ pre.map k := by
      intro z hz hmem
      exact ih (pre ++ [x]) z hz (by simp only [List.map_append, List.mem_append]; exact Or.inl hmem)
    by_cases hall : pre.all (fun y => k y != k x) = true
    · simp only [keptFirst, hall, ↓reduceIte, List.mem_cons] at hy
      rcases hy with hy | hy
      · subst hy
        exact (all_ne_key_iff k pre _).mp hall
      · exact hrest y hy
    · simp only [keptFirst, hall, Bool.false_eq_true, ↓reduceIte] at hy
      exact hrest y hy

theorem keptFirst_nodup {T R : Type} [DecidableEq R] (k : T → R) (xs pre : Slice T) :
    ((keptFirst k pre xs).map k).Nodup := by
  induction xs generalizing pre with
  | nil => simp [keptFirst]
  | cons x rest ih =>
    by_cases hall : pre.all (fun y => k y != k x) = true
    · simp only [keptFirst, hall, ↓reduceIte, List.map_cons, List.nodup_cons]
      refine ⟨?_, ih (pre ++ [x])⟩
      intro hmem
      obtain ⟨z, hz, hzk⟩ := List.mem_map.mp hmem
      exact keptFirst_not_mem_pre k rest (pre ++ [x]) z hz (by simp [hzk])
    · simp only [keptFirst, hall, Bool.false_eq_true, ↓reduceIte]
      exact ih (pre ++ [x])

theorem keptFirst_covers {T R : Type} [DecidableEq R] (k : T → R) (xs pre : Slice T) :
    ∀ x ∈ xs, k x ∈ pre.map k ∨ k x ∈ (keptFirst k pre xs).map k := by
  induction xs generalizing pre with
  | nil => simp
  | cons x rest ih =>
    intro y hy
    by_cases hall : pre.all (fun y => k y != k x) = true
    · simp only [keptFirst, hall, ↓reduceIte, List.map_cons, List.mem_cons]
      rcases List.mem_cons.mp hy with hy | hy
      · subst hy
        exact Or.inr (Or.inl rfl)
      · rcases ih (pre ++ [x]) y hy with h | h
        · simp only [List.map_append, List.map_cons, List.map_nil, List.mem_append,
            List.mem_singleton] at h
          rcases h with h | h
          · exact Or.inl h
          · exact Or.inr (Or.inl h)
        · exact Or.inr (Or.inr h)
    · simp only [keptFirst, hall, Bool.false_eq_true, ↓reduceIte]
      have hxpre : k x ∈ pre.map k := by
        by_contra hc
        exact hall ((all_ne_key_iff k pre _).mpr hc)
      rcases List.mem_cons.mp hy with hy | hy
      · subst hy
        exact Or.inl hxpre
      · rcases ih (pre ++ [x]) y hy with h | h
        · simp only [List.map_append, List.map_cons, List.map_nil, List.mem_append,
            List.mem_singleton] at h
          rcases h with h | h
          · exact Or.inl h
          · exact Or.inl (h ▸ hxpre)
        · exact Or.inr h

/-- C18: for a finite stream `s` with elements `xs` and a key function `k`, the
first `List()` of a freshly built `DistinctBy(s, k)` returns, in source order, the
elements of `xs` whose key occurs at no earlier position of `xs`; the keys of the result
are pairwise distinct and every key that occurs in `xs` is among them. -/
theorem C18_DistinctBy_first_occurrence {σ T R : Type} [DecidableEq R] (seen : Ref σ (R → Bool))
    (hseen : seen.Lawful) (s : Stream σ T) (xs : Slice T) (hs : s.Yields xs) (k : T → R)
    (w : σ) :
    ∃ d w0 l w1, DistinctBy s k seen w = .ok (d, w0)
      ∧ d.List w0 = .ok (l, w1)
      ∧ l = (xs.enum.filter (fun p => (xs.take p.1).all (fun y => k y != k p.2))).map Prod.snd
      ∧ (l.map k).Nodup
      ∧ (∀ x ∈ xs, k x ∈ l.map k) := by
  obtain ⟨S1, _, hloop⟩ := forSlice_distinct_collect seen hseen k xs [] [] (fun _ => false)
    (by simp) w
  refine ⟨_, _, keptFirst k [] xs, seen.set S1 w, rfl, ?_, ?_, keptFirst_nodup k xs [], ?_⟩
  · simp only [Stream.List]
    rw [hs _ [] (seen.set (fun _ => false) w)]
    simpa using hloop
  · simpa using keptFirst_eq_filter k xs []
  · intro x hx
    simpa using keptFirst_covers k xs [] x hx

theorem C18_DistinctBy_first_occurrence_witness :
    ∃ d w0 l w1,
      DistinctBy (FromSlice [1, 2, 11, 3, 12, 1] : Stream (Nat → Bool) Nat) (fun n => n % 10)
        Ref.self (fun _ => true) = .ok (d, w0)
      ∧ d.List w0 = .ok (l, w1)
      ∧ l = [1, 2, 3] := by
  obtain ⟨d, w0, l, w1, h1, h2, h3, _⟩ := C18_DistinctBy_first_occurrence Ref.self
    Ref.self_Lawful (FromSlice [1, 2, 11, 3, 12, 1] : Stream (Nat → Bool) Nat)
    [1, 2, 11, 3, 12, 1] (FromSlice_Yields _) (fun n => n % 10) (fun _ => true)
  refine ⟨d, w0, l, w1, h1, h2, ?_⟩
  rw [h3]
  decide

theorem Count_loop_filter_never {σ β : Type} (yield : Yield σ Int β) (step : Int) (fuel : Nat)
    (cur : Int) (b : β) (w : σ) :
    Count.loop (fun item b1 w1 =>
        if (fun (_ : Int) => false) item then yield item b1 w1
        else Outcome.ok ((true, b1), w1)) step fuel cur b w = .diverge := by
  induction fuel generalizing cur with
  | zero => rfl
  | succ fuel ih =>
    simp only [Count.loop, Bool.false_eq_true, ↓reduceIte]
    exact ih _

theorem Count_loop_filter_lt_three_waits {σ : Type} (fuel : Nat) (cur : Int) (acc : Slice Int)
    (w : σ) (hcur : 3 ≤ cur) (hfuel : cur + fuel ≤ 2 ^ 63) :
    Count.loop (fun item (st : Int × Slice Int) (w1 : σ) =>
        if decide (item < 3) then
          (if st.1 ≥ 3 then Outcome.ok ((false, st), w1)
            else
              match (Outcome.ok ((true, st.2 ++ [item]), w1) :
                  Outcome ((Bool × Slice Int) × σ)) with
              | .ok ((true, b1), w2) => Outcome.ok ((true, (st.1 + 1, b1)), w2)
              | .ok ((false, b1), w2) => .ok ((false, (st.1, b1)), w2)
              | .panic msg => .panic msg
              | .diverge => .diverge)
        else .ok ((true, st), w1)) 1 fuel cur (3, acc) w = .diverge := by
  induction fuel generalizing cur with
  | zero => rfl
  | succ fuel ih =>
    have hnot : ¬ cur < 3 := by omega
    simp only [Count.loop, hnot, decide_False, Bool.false_eq_true, ↓reduceIte]
    cases fuel with
    | zero => rfl
    | succ fuel =>
      have hw : wrapInt (cur + 1) = cur + 1 := by
        apply wrapInt_of_inRange
        push_cast at hfuel
        constructor <;> omega
      rw [hw]
      exact ih (cur + 1) (by omega) (by push_cast at hfuel ⊢; omega)

/-- C20 (the code at failing inputs): `Take(n)` asks its source for one element more
than it hands on.  (1) With a predicate that no element satisfies and `n = 0`,
`Count(0, 1).Filter(p).Take(0).List()` does not return, whatever the budget of iterations.
(2) `Count(0, 1).Filter(x < 3).Take(3).List()` does not return within `2^63` iterations of
the loop of `Count` (the fourth element it waits for comes only when the counter wraps
to a negative value).  (3) Driving `FromSlice([1, 2, 3]).Peek(a).Take(2)` to completion
returns `[1, 2]` and invokes `a` on `1`, `2` and `3`: the source has produced three
elements. -/
theorem C20_Take_pulls_one_more :
    (∀ (fuel : Nat),
        (((Count fuel 0 1 : Stream Unit Int).Filter (fun _ => false)).Take 0).List ()
          = .diverge)
    ∧ (∀ (fuel : Nat), fuel ≤ 2 ^ 63 →
        (((Count fuel 0 1 : Stream Unit Int).Filter (fun x => decide (x < 3))).Take 3).List ()
          = .diverge)
    ∧ (((FromSlice [1, 2, 3] : Stream (Slice Nat) Nat).Peek recordCall).Take 2).List []
        = .ok ([1, 2], [1, 2, 3]) := by
  refine ⟨?_, ?_, by decide⟩
  · intro fuel
    simp only [Stream.List, Stream.Take, Stream.Filter, Count]
    rw [Count_loop_filter_never]
  · intro fuel hfuel
    simp only [Stream.List, Stream.Take, Stream.Filter, Count]
    match fuel, hfuel with
    | 0, _ => rfl
    | 1, _ => rfl
    | 2, _ => rfl
    | fuel + 3, hfuel =>
      have h := Count_loop_filter_lt_three_waits (σ := Unit) fuel 3 [0, 1, 2] () (by decide)
        (by omega)
      have e1 : wrapInt (0 + 1) = 1 := by decide
      have e2 : wrapInt (1 + 1) = 2 := by decide
      have e3 : wrapInt (2 + 1) = 3 := by decide
      simp only [Count.loop, e1, e2, e3]
      simp only [show ((0 : Int) < 3) = True by simp, show ((1 : Int) < 3) = True by simp,
        show ((2 : Int) < 3) = True by simp, decide_True, ↓reduceIte, ge_iff_le,
        show ¬ ((3 : Int) ≤ 0) by decide, show ¬ ((3 : Int) ≤ 0 + 1) by decide,
        show ¬ ((3 : Int) ≤ 0 + 1 + 1) by decide, List.nil_append, List.cons_append]
      simp only [ge_iff_le] at h
      rw [show ((0 : Int) + 1 + 1 + 1) = 3 by decide]
      rw [h]

theorem forSlice_stop_at {σ T R β : Type} (a : T → σ → σ) (f : T → R) (p q : R → Bool)
    (stop : R → β) (pre : Slice T) (x : T) (post : Slice T)
    (hpre : ∀ y ∈ pre, (p (f y) && q (f y)) = false) (hp : p (f x) = true)
    (hq : q (f x) = true) (b : β) (w : σ) :
    forSlice (fun item (st : β) w1 =>
        if p (f item) then
          (if q (f item) then Outcome.ok ((false, stop (f item)), a item w1)
            else .ok ((true, st), a item w1))
        else .ok ((true, st), a item w1)) (pre ++ x :: post) b w
      = .ok (stop (f x), (pre ++ [x]).foldl (fun w1 y => a y w1) w)
    ∧ forSliceAnswers (fun item (st : β) w1 =>
        if p (f item) then
          (if q (f item) then Outcome.ok ((false, stop (f item)), a item w1)
            else .ok ((true, st), a item w1))
        else .ok ((true, st), a item w1)) (pre ++ x :: post) b w
      = List.replicate pre.length true ++ [false] := by
  induction pre generalizing w with
  | nil => simp [forSlice, forSliceAnswers, hp, hq]
  | cons y rest ih =>
    have hy : (p (f y) && q (f y)) = false := hpre y (List.mem_cons_self _ _)
    have hrest : ∀ z ∈ rest, (p (f z) && q (f z)) = false :=
      fun z hz => hpre z (List.mem_cons_of_mem _ hz)
    obtain ⟨ih1, ih2⟩ := ih hrest (a y w)
    by_cases hpy : p (f y) = true
    · have hqy : q (f y) = false := by simpa [hpy] using hy
      constructor
      · simp only [List.cons_append, forSlice, hpy, hqy, ↓reduceIte, Bool.false_eq_true,
          List.foldl_cons]
        exact ih1
      · simp only [List.cons_append, forSliceAnswers, hpy, hqy, ↓reduceIte, Bool.false_eq_true,
          List.length_cons, List.replicate_succ]
        exact congrArg (List.cons true) ih2
    · constructor
      · simp only [List.cons_append, forSlice, hpy, ↓reduceIte, List.foldl_cons]
        exact ih1
      · simp only [List.cons_append, forSliceAnswers, hpy, ↓reduceIte, List.length_cons,
          List.replicate_succ]
        exact congrArg (List.cons true) ih2

/-- C21: let the source be `FromSlice(pre ++ x :: post)`, where `x` (at position
`k = len pre`) is the first element whose image under `f` passes `p` and satisfies `q`.
Driving `Map(src.Peek(a), f).Filter(p)` with `Find(q)` returns `(f(x), true)`, and `Exists(q)`
and `Any(q)` return `true`; in each case `a` has been invoked on the elements at positions
`0..k`, in order, and on no other.  The callback that the pipeline hands to its source
(the same for every source) answers `true` on the first `k` elements and `false` on `x`:
the `yield` of the source returns `false` once, in its last call. -/
theorem C21_stop_propagation {σ T R : Type} [Inhabited R] (pre : Slice T) (x : T)
    (post : Slice T) (a : T → σ → σ) (f : T → R) (p q : R → Bool)
    (hpre : ∀ y ∈ pre, (p (f y) && q (f y)) = false) (hp : p (f x) = true)
    (hq : q (f x) = true) (w : σ) :
    ((Map ((FromSlice (pre ++ x :: post)).Peek a) f).Filter p).Find q w
        = .ok ((f x, true), (pre ++ [x]).foldl (fun w1 y => a y w1) w)
    ∧ ((Map ((FromSlice (pre ++ x :: post)).Peek a) f).Filter p).Exists q w
        = .ok (true, (pre ++ [x]).foldl (fun w1 y => a y w1) w)
    ∧ ((Map ((FromSlice (pre ++ x :: post)).Peek a) f).Filter p).Any q w
        = .ok (true, (pre ++ [x]).foldl (fun w1 y => a y w1) w)
    ∧ (∃ Y : Yield σ T (Option R),
        (∀ (src : Stream σ T) (w0 : σ),
          ((Map (src.Peek a) f).Filter p).Find q w0
            = match src._seq Y none w0 with
              | .ok (some item, w1) => .ok ((item, true), w1)
              | .ok (none, w1) => .ok ((default, false), w1)
              | .panic msg => .panic msg
              | .diverge => .diverge)
        ∧ forSliceAnswers Y (pre ++ x :: post) none w
            = List.replicate pre.length true ++ [false])
    ∧ (∃ Y : Yield σ T Bool,
        (∀ (src : Stream σ T) (w0 : σ),
          ((Map (src.Peek a) f).Filter p).Exists q w0 = src._seq Y false w0
          ∧ ((Map (src.Peek a) f).Filter p).Any q w0 = src._seq Y false w0)
        ∧ forSliceAnswers Y (pre ++ x :: post) false w
            = List.replicate pre.length true ++ [false]) := by
  have hF := forSlice_stop_at a f p q (fun r => some r) pre x post hpre hp hq none w
  have hE := forSlice_stop_at a f p q (fun _ => true) pre x post hpre hp hq false w
  refine ⟨?_, ?_, ?_, ⟨fun item st w1 =>
        if p (f item) then
          (if q (f item) then Outcome.ok ((false, some (f item)), a item w1)
            else .ok ((true, st), a item w1))
        else .ok ((true, st), a item w1), fun src w0 => rfl, hF.2⟩,
    ⟨fun item st w1 =>
        if p (f item) then
          (if q (f item) then Outcome.ok ((false, true), a item w1)
            else .ok ((true, st), a item w1))
        else .ok ((true, st), a item w1), fun src w0 => ⟨rfl, rfl⟩, hE.2⟩⟩
  · have e : ((Map ((FromSlice (pre ++ x :: post)).Peek a) f).Filter p).Find q w
        = (match forSlice (fun item (st : Option R) w1 =>
              if p (f item) then
                (if q (f item) then Outcome.ok ((false, some (f item)), a item w1)
                  else .ok ((true, st), a item w1))
              else .ok ((true, st), a item w1)) (pre ++ x :: post) none w with
            | .ok (some item, w1) => Outcome.ok ((item, true), w1)
            | .ok (none, w1) => .ok ((default, false), w1)
            | .panic msg => .panic msg
            | .diverge => .diverge) := rfl
    rw [e, hF.1]
  · exact hE.1
  · exact hE.1

theorem C21_stop_propagation_witness :
    ((Map ((FromSlice [1, 2, 3, 4, 5] : Stream (Slice Nat) Nat).Peek recordCall)
        (fun n => n * 10)).Filter (fun r => decide (r ≥ 20))).Find (fun r => decide (r ≥ 30)) []
      = .ok ((30, true), [1, 2, 3]) :=
  (C21_stop_propagation (σ := Slice Nat) [1, 2] 3 [4, 5] recordCall (fun n => n * 10)
    (fun r => decide (r ≥ 20)) (fun r => decide (r ≥ 30)) (by decide) (by decide) (by decide)
    []).1

/-- C22 (the code at a failing input): the consumer below answers `false` to every
group it is offered and writes the group down.  Driving `GroupBy` with the identity key
over `[true, false, true, false]`, it is called three times, with `[true]`, `[false]` and
`[true]`: the answer `false` to the first group does not stop `GroupBy`. -/
theorem C22_GroupBy_continues_after_false :
    (GroupBy sprintfBool (FromSlice [true, false, true, false] : Stream Unit Bool) none)._seq
        (fun group (offered : Slice (Slice Bool)) w => .ok ((false, offered ++ [group]), w))
        [] ()
      = .ok ([[true], [false], [true]], ()) := by
  decide

/-- C23 (the code at a failing input): for `d = DistinctBy(FromSlice([1, 2, 1]), k)`
with `k` the identity, the first `d.List()` returns `[1, 2]` and the second one returns
the empty list: the map `seen` is created outside the closure and still holds the keys of
the first traversal. -/
theorem C23_DistinctBy_second_traversal :
    ∃ d w0 w1 w2,
      DistinctBy (FromSlice [1, 2, 1] : Stream (Nat → Bool) Nat) id Ref.self (fun _ => false)
        = .ok (d, w0)
      ∧ d.List w0 = .ok ([1, 2], w1)
      ∧ d.List w1 = .ok ([], w2) :=
  ⟨_, _, _, _, rfl, rfl, rfl⟩

theorem forSlice_chunked {σ T β : Type} (yield : Yield σ (Slice T) β) (p : T → Bool)
    (xs chunk : Slice T) (b : β) (w : σ) :
    (match forSlice (fun item (st : Slice T × β × Bool) w1 =>
          if p item && decide (st.1.length > 0) then
            match yield st.1 st.2.1 w1 with
            | .ok ((true, b1), w2) => Outcome.ok ((true, ([item], b1, false)), w2)
            | .ok ((false, b1), w2) => .ok ((false, (st.1, b1, true)), w2)
            | .panic msg => .panic msg
            | .diverge => .diverge
          else .ok ((true, (st.1 ++ [item], st.2.1, false)), w1)) xs (chunk, b, false) w with
      | .ok ((chunk1, b1, returned), w1) =>
        if returned then Outcome.ok (b1, w1)
        else if chunk1.length > 0 then
          match yield chunk1 b1 w1 with
          | .ok ((_, b2), w2) => .ok (b2, w2)
          | .panic msg => .panic msg
          | .diverge => .diverge
        else .ok (b1, w1)
      | .panic msg => .panic msg
      | .diverge => .diverge) = forSlice yield (chunkedWindows p chunk xs) b w := by
  induction xs generalizing chunk b w with
  | nil =>
    by_cases hb : chunk.length > 0
    · simp only [forSlice, chunkedWindows, hb, ↓reduceIte, Bool.false_eq_true]
      cases h : yield chunk b w with
      | ok r =>
        obtain ⟨⟨c, b1⟩, w1⟩ := r
        cases c <;> rfl
      | panic msg => rfl
      | diverge => rfl
    · simp [forSlice, chunkedWindows, hb]
  | cons x rest ih =>
    by_cases hn : (p x && decide (chunk.length > 0)) = true
    · simp only [forSlice, chunkedWindows, hn, ↓reduceIte]
      cases h : yield chunk b w with
      | ok r =>
        obtain ⟨⟨c, b1⟩, w1⟩ := r
        cases c
        · simp
        · exact ih [x] b1 w1
      | panic msg => rfl
      | diverge => rfl
    · simp only [forSlice, chunkedWindows, hn, Bool.false_eq_true, ↓reduceIte]
      exact ih (chunk ++ [x]) b w

theorem Chunked_Yields {σ T : Type} {s : Stream σ T} {xs : Slice T} (hs : s.Yields xs)
    (p : T → Bool) : (Chunked s p).Yields (chunkedWindows p [] xs) := by
  intro β yield b w
  simp only [Chunked]
  rw [hs _ ([], b, false) w]
  exact forSlice_chunked yield p xs [] b w

theorem chunkedWindows_flatten {T : Type} (p : T → Bool) (xs chunk : Slice T) :
    (chunkedWindows p chunk xs).flatten = chunk ++ xs := by
  induction xs generalizing chunk with
  | nil => cases chunk <;> simp [chunkedWindows]
  | cons x rest ih =>
    by_cases hn : (p x && decide (chunk.length > 0)) = true
    · rw [chunkedWindows, if_pos hn]
      simp [ih]
    · rw [chunkedWindows, if_neg hn]
      simp [ih]

theorem chunkedWindows_shape {T : Type} (p : T → Bool) (xs chunk : Slice T)
    (hchunk : chunk ≠ []) :
    ∃ t R, chunkedWindows p chunk xs = (chunk ++ t) :: R
      ∧ (∀ y ∈ t, p y = false)
      ∧ ∀ c ∈ R, ∃ h tl, c = h :: tl ∧ p h = true ∧ ∀ y ∈ tl, p y = false := by
  induction xs generalizing chunk with
  | nil =>
    have hpos : chunk.length > 0 := List.length_pos.mpr hchunk
    exact ⟨[], [], by simp [chunkedWindows, hpos], by simp, by simp⟩
  | cons x rest ih =>
    have hpos : chunk.length > 0 := List.length_pos.mpr hchunk
    by_cases hpx : p x = true
    · obtain ⟨t, R, h1, h2, h3⟩ := ih [x] (by simp)
      refine ⟨[], (x :: t) :: R, ?_, by simp, ?_⟩
      · rw [chunkedWindows, if_pos (by simp [hpx, hpos]), h1]
        simp
      · intro c hc
        rcases List.mem_cons.mp hc with hc | hc
        · exact ⟨x, t, hc, hpx, h2⟩
        · exact h3 c hc
    · obtain ⟨t, R, h1, h2, h3⟩ := ih (chunk ++ [x]) (by simp)
      refine ⟨x :: t, R, ?_, ?_, h3⟩
      · rw [chunkedWindows, if_neg (by simp [hpx]), h1]
        simp
      · intro y hy
        rcases List.mem_cons.mp hy with hy | hy
        · subst hy
          simpa using hpx
        · exact h2 y hy

/-- C24: for a finite stream `s` with elements `xs` and a predicate `p`, the chunks
of `Chunked(s, p).List()` concatenate to `xs`, no chunk is empty, every chunk after the
first begins with an element that satisfies `p`, no element of a chunk other than its
first satisfies `p`, and an empty source gives no chunk. -/
theorem C24_Chunked_splits_before_matches {σ T : Type} (s : Stream σ T) (xs : Slice T)
    (hs : s.Yields xs) (p : T → Bool) (w : σ) :
    ∃ cs, (Chunked s p).List w = .ok (cs, w)
      ∧ s.List w = .ok (xs, w)
      ∧ cs.flatten = xs
      ∧ (∀ c ∈ cs, c ≠ [])
      ∧ (∀ c ∈ cs.tail, ∃ h, c.head? = some h ∧ p h = true)
      ∧ (∀ c ∈ cs, ∀ y ∈ c.tail, p y = false)
      ∧ (xs = [] → cs = []) := by
  refine ⟨chunkedWindows p [] xs, Yields_List (Chunked_Yields hs p) w, Yields_List hs w,
    by simpa using chunkedWindows_flatten p xs [], ?_⟩
  cases xs with
  | nil => simp [chunkedWindows]
  | cons x rest =>
    obtain ⟨t, R, h1, h2, h3⟩ := chunkedWindows_shape p rest [x] (by simp)
    have e : chunkedWindows p [] (x :: rest) = (x :: t) :: R := by
      rw [chunkedWindows, if_neg (by simp)]
      simpa using h1
    rw [e]
    refine ⟨?_, ?_, ?_, by simp⟩
    · intro c hc
      rcases List.mem_cons.mp hc with hc | hc
      · simp [hc]
      · obtain ⟨h, tl, hc', _⟩ := h3 c hc
        simp [hc']
    · intro c hc
      obtain ⟨h, tl, hc', hph, _⟩ := h3 c (by simpa using hc)
      exact ⟨h, by simp [hc'], hph⟩
    · intro c hc y hy
      rcases List.mem_cons.mp hc with hc | hc
      · subst hc
        exact h2 y (by simpa using hy)
      · obtain ⟨h, tl, hc', _, htl⟩ := h3 c hc
        subst hc'
        exact htl y (by simpa using hy)

theorem C24_Chunked_splits_before_matches_witness :
    ∃ cs, (Chunked (FromSlice [1, 2, 10, 3, 11, 12, 4] : Stream Unit Nat)
          (fun n => decide (n ≥ 10))).List () = .ok (cs, ())
      ∧ cs = [[1, 2], [10, 3], [11], [12, 4]]
      ∧ cs.flatten = [1, 2, 10, 3, 11, 12, 4] := by
  obtain ⟨cs, h1, _, h3, _⟩ := C24_Chunked_splits_before_matches
    (FromSlice [1, 2, 10, 3, 11, 12, 4] : Stream Unit Nat) [1, 2, 10, 3, 11, 12, 4]
    (FromSlice_Yields _) (fun n => decide (n ≥ 10)) ()
  refine ⟨cs, h1, ?_, h3⟩
  have h2 : (Chunked (FromSlice [1, 2, 10, 3, 11, 12, 4] : Stream Unit Nat)
      (fun n => decide (n ≥ 10))).List () = .ok ([[1, 2], [10, 3], [11], [12, 4]], ()) := by
    decide
  rw [h1] at h2
  simpa using h2

theorem forSlice_maxBody {σ T : Type} (c : T → T → Int) (xs : Slice T) (m : T) (w : σ) :
    forSlice (fun item (st : T × Bool) (w1 : σ) =>
        if st.2 then Outcome.ok ((true, (item, false)), w1)
        else if c item st.1 > 0 then .ok ((true, (item, st.2)), w1)
        else .ok ((true, st), w1)) xs (m, false) w
      = .ok ((xs.foldl (fun m1 item => if c item m1 > 0 then item else m1) m, false), w) := by
  induction xs generalizing m with
  | nil => rfl
  | cons x rest ih =>
    by_cases h : c x m > 0
    · simp only [forSlice, Bool.false_eq_true, ↓reduceIte, h, List.foldl_cons]
      exact ih x
    · simp only [forSlice, Bool.false_eq_true, ↓reduceIte, h, List.foldl_cons]
      exact ih m

theorem Max_eq_foldl {σ T : Type} [Inhabited T] {s : Stream σ T} {xs : Slice T}
    (hs : s.Yields xs) (c : T → T → Int) (w : σ) :
    s.Max c w = .ok (match xs with
      | [] => default
      | x :: rest => rest.foldl (fun m1 item => if c item m1 > 0 then item else m1) x, w) := by
  simp only [Stream.Max]
  rw [hs _ (default, true) w]
  cases xs with
  | nil => rfl
  | cons x rest =>
    simp only [forSlice, ↓reduceIte]
    rw [forSlice_maxBody]

theorem Min_eq_Max_neg {σ T : Type} [Inhabited T] (s : Stream σ T) (c : T → T → Int) (w : σ) :
    s.Min c w = s.Max (fun x y => -(c x y)) w := by
  have h : ∀ i m, (c i m < 0) = (-(c i m) > 0) := by
    intro i m
    simp
  simp only [Stream.Min, Stream.Max, h]

theorem IsTotalPreorderCmp.refl {T : Type} {c : T → T → Int} (hc : IsTotalPreorderCmp c)
    (x : T) : c x x = 0 := by
  have h := hc.flip x x
  omega

theorem IsTotalPreorderCmp.neg {T : Type} {c : T → T → Int} (hc : IsTotalPreorderCmp c) :
    IsTotalPreorderCmp (fun x y => -(c x y)) := by
  constructor
  · intro x y
    have h := hc.flip y x
    constructor <;> intro h1 <;> simp only [gt_iff_lt, Left.neg_neg_iff, Left.neg_pos_iff] at * <;>
      omega
  · intro x y z hxy hyz
    have h1 := hc.flip x y
    have h2 := hc.flip y z
    have h3 := hc.flip x z
    have h4 := hc.trans z y x (by omega) (by omega)
    simp only [Left.neg_nonpos_iff] at *
    omega

theorem foldl_max_earliest {T : Type} {c : T → T → Int} (hc : IsTotalPreorderCmp c)
    (rest : Slice T) (pre0 : Slice T) (m : T) (post0 : Slice T)
    (hle : ∀ x ∈ pre0 ++ m :: post0, c x m ≤ 0)
    (hpre : ∀ e ∈ pre0, ∃ x ∈ pre0 ++ m :: post0, c x e > 0) :
    ∃ pre post,
      pre0 ++ m :: post0 ++ rest
        = pre ++ rest.foldl (fun m1 item => if c item m1 > 0 then item else m1) m :: post
      ∧ (∀ x ∈ pre0 ++ m :: post0 ++ rest,
          c x (rest.foldl (fun m1 item => if c item m1 > 0 then item else m1) m) ≤ 0)
      ∧ (∀ e ∈ pre, ∃ x ∈ pre0 ++ m :: post0 ++ rest, c x e > 0) := by
  induction rest generalizing pre0 m post0 with
  | nil => exact ⟨pre0, post0, by simp, by simpa using hle, by simpa using hpre⟩
  | cons item rest ih =>
    by_cases h : c item m > 0
    · have hmi : c m item ≤ 0 := by
        have := hc.flip m item
        omega
      have hle1 : ∀ x ∈ (pre0 ++ m :: post0) ++ item :: [], c x item ≤ 0 := by
        intro x hx
        rcases List.mem_append.mp hx with hx | hx
        · exact hc.trans x m item (hle x hx) hmi
        · have : x = item := by simpa using hx
          subst this
          have := hc.refl x
          omega
      have hpre1 : ∀ e ∈ pre0 ++ m :: post0,
          ∃ x ∈ (pre0 ++ m :: post0) ++ item :: [], c x e > 0 := by
        intro e he
        refine ⟨item, by simp, ?_⟩
        by_contra hcon
        have h1 := hc.trans item e m (by omega) (hle e he)
        omega
      obtain ⟨pre, post, h1, h2, h3⟩ := ih (pre0 ++ m :: post0) item [] hle1 hpre1
      refine ⟨pre, post, ?_, ?_, ?_⟩
      · simp only [List.foldl_cons, h, ↓reduceIte]
        simpa using h1
      · simp only [List.foldl_cons, h, ↓reduceIte]
        intro x hx
        exact h2 x (by simpa using hx)
      · intro e he
        obtain ⟨x, hx, hxe⟩ := h3 e he
        exact ⟨x, by simpa using hx, hxe⟩
    · have hle1 : ∀ x ∈ pre0 ++ m :: (post0 ++ [item]), c x m ≤ 0 := by
        intro x hx
        have hx' : x ∈ pre0 ++ m :: post0 ∨ x = item := by
          simp only [List.mem_append, List.mem_cons, List.mem_singleton] at hx ⊢
          tauto
        rcases hx' with hx' | hx'
        · exact hle x hx'
        · subst hx'
          omega
      have hpre1 : ∀ e ∈ pre0, ∃ x ∈ pre0 ++ m :: (post0 ++ [item]), c x e > 0 := by
        intro e he
        obtain ⟨x, hx, hxe⟩ := hpre e he
        refine ⟨x, ?_, hxe⟩
        simp only [List.mem_append, List.mem_cons, List.mem_singleton] at hx ⊢
        tauto
      obtain ⟨pre, post, h1, h2, h3⟩ := ih pre0 m (post0 ++ [item]) hle1 hpre1
      refine ⟨pre, post, ?_, ?_, ?_⟩
      · simp only [List.foldl_cons, h, ↓reduceIte]
        simpa using h1
      · simp only [List.foldl_cons, h, ↓reduceIte]
        intro x hx
        exact h2 x (by simpa using hx)
      · intro e he
        obtain ⟨x, hx, hxe⟩ := h3 e he
        exact ⟨x, by simpa using hx, hxe⟩

theorem Max_earliest {σ T : Type} [Inhabited T] {s : Stream σ T} {xs : Slice T}
    (hs : s.Yields xs) {c : T → T → Int} (hc : IsTotalPreorderCmp c) (hxs : xs ≠ []) (w : σ) :
    ∃ m pre post, s.Max c w = .ok (m, w) ∧ xs = pre ++ m :: post
      ∧ (∀ x ∈ xs, c x m ≤ 0) ∧ (∀ e ∈ pre, ¬ ∀ x ∈ xs, c x e ≤ 0) := by
  cases xs with
  | nil => exact absurd rfl hxs
  | cons x rest =>
    obtain ⟨pre, post, h1, h2, h3⟩ := foldl_max_earliest hc rest [] x []
      (by
        intro y hy
        have : y = x := by simpa using hy
        subst this
        have := hc.refl y
        omega)
      (by simp)
    refine ⟨_, pre, post, Max_eq_foldl hs c w, by simpa using h1, ?_, ?_⟩
    · intro y hy
      exact h2 y (by simpa using hy)
    · intro e he hall
      obtain ⟨y, hy, hye⟩ := h3 e he
      have := hall y (by simpa using hy)
      omega

/-- C25: for a non-empty finite stream `s` with elements `xs` and a comparator `c`
that is a total preorder, `s.Max(c)` returns an element `m` of `xs` with `c(x, m) <= 0` for
every `x` of `xs`, and no element before it has that property; `s.Min(c)` returns an
element `m` with `c(x, m) >= 0` for every `x`, and no element before it has that
property.  For an empty stream both return the zero value of `T`. -/
theorem C25_Max_Min_by_comparator {σ T : Type} [Inhabited T] (s : Stream σ T) (xs : Slice T)
    (hs : s.Yields xs) (c : T → T → Int) (hc : IsTotalPreorderCmp c) (w : σ) :
    (xs = [] → s.Max c w = .ok (default, w) ∧ s.Min c w = .ok (default, w))
    ∧ (xs ≠ [] →
        (∃ m pre post, s.Max c w = .ok (m, w) ∧ xs = pre ++ m :: post
          ∧ (∀ x ∈ xs, c x m ≤ 0) ∧ (∀ e ∈ pre, ¬ ∀ x ∈ xs, c x e ≤ 0))
        ∧ (∃ m pre post, s.Min c w = .ok (m, w) ∧ xs = pre ++ m :: post
          ∧ (∀ x ∈ xs, c x m ≥ 0) ∧ (∀ e ∈ pre, ¬ ∀ x ∈ xs, c x e ≥ 0))) := by
  constructor
  · intro hxs
    subst hxs
    rw [Min_eq_Max_neg, Max_eq_foldl hs, Max_eq_foldl hs]
    exact ⟨rfl, rfl⟩
  · intro hxs
    refine ⟨Max_earliest hs hc hxs w, ?_⟩
    obtain ⟨m, pre, post, h1, h2, h3, h4⟩ := Max_earliest hs hc.neg hxs w
    refine ⟨m, pre, post, by rw [Min_eq_Max_neg]; exact h1, h2, ?_, ?_⟩
    · intro x hx
      have := h3 x hx
      simp only [Left.neg_nonpos_iff] at this
      exact this
    · intro e he hall
      apply h4 e he
      intro x hx
      have := hall x hx
      simp only [Left.neg_nonpos_iff]
      exact this

theorem C25_Max_Min_by_comparator_witness :
    (FromSlice [3, 1, 4, 1, 5, 9, 2, 6, 5, 9] : Stream Unit Int).Max (fun a b => a - b) ()
        = .ok (9, ())
    ∧ (FromSlice [3, 1, 4, 1, 5, 9, 2, 6, 5, 9] : Stream Unit Int).Min (fun a b => a - b) ()
        = .ok (1, ())
    ∧ ∃ m pre post,
        (FromSlice [3, 1, 4, 1, 5, 9, 2, 6, 5, 9] : Stream Unit Int).Max (fun a b => a - b) ()
          = .ok (m, ())
        ∧ [3, 1, 4, 1, 5, 9, 2, 6, 5, 9] = pre ++ m :: post
        ∧ ∀ x ∈ [3, 1, 4, 1, 5, 9, 2, 6, 5, 9], x - m ≤ 0 := by
  have hc : IsTotalPreorderCmp (fun (a b : Int) => a - b) :=
    ⟨fun x y => by constructor <;> intro h <;> omega, fun x y z h1 h2 => by omega⟩
  obtain ⟨m, pre, post, h1, h2, h3, _⟩ := ((C25_Max_Min_by_comparator
    (FromSlice [3, 1, 4, 1, 5, 9, 2, 6, 5, 9] : Stream Unit Int) [3, 1, 4, 1, 5, 9, 2, 6, 5, 9]
    (FromSlice_Yields _) (fun a b => a - b) hc ()).2 (by decide)).1
  exact ⟨by decide, by decide, m, pre, post, h1, h2, h3⟩

end Lazystream
